import Mathlib

/-!
# BitTorrent peer-wire codec: handshake and message framing

A shallow embedding of `handshake/handshake.go` and `message/message.go`.

* A Go `[]byte` is a `List Byte`; writes through a sub-slice (`buf[lo:hi]`) are
  writes into the backing buffer at the given offset.
* Every index and slice expression is bounds-checked as the Go runtime does;
  a violated check is the `Panic` outcome.
* An `io.Reader` is the finite list of bytes it will deliver before end of
  stream; reading returns the unread remainder as the new reader state.
* `int` is 64-bit; `uint32(..)` and `byte(..)` conversions reduce modulo
  `2^32` and `2^8`.
-/

namespace BitTorrent

/-- One octet. -/
abbrev Byte := Fin 256

/-- Go `byte(n)`: conversion of an integer to `uint8`, keeping the low 8 bits. -/
def toByte (n : Nat) : Byte := ⟨n % 256, Nat.mod_lt _ (by decide)⟩

/-- Go `uint32(n)` for a non-negative `int`: the low 32 bits. -/
def toUint32 (n : Nat) : Nat := n % 2 ^ 32

/-- Go `uint32(i)` for a signed `int`: the two's-complement low 32 bits. -/
def intToUint32 (i : Int) : Nat := (i % 2 ^ 32).toNat

/-- Run-time panics raised by failed bounds checks. -/
inductive Panic where
  | indexOutOfRange
  | sliceBoundsOutOfRange
  deriving DecidableEq, Repr

/-- Errors returned through the `error` result. -/
inductive Error where
  /-- The value `io.EOF`. -/
  | EOF
  /-- The value `io.ErrUnexpectedEOF`. -/
  | ErrUnexpectedEOF
  /-- An error built by `fmt.Errorf` with the given text. -/
  | Errorf (msg : String)
  deriving DecidableEq, Repr

/-- The errors that come from the stream rather than from frame content. -/
def Error.isStreamError : Error → Bool
  | .EOF => true
  | .ErrUnexpectedEOF => true
  | .Errorf _ => false

/-- Outcome of a Go function with result `(*T, error)`: a value with a nil
error, a nil value with an error, or a run-time panic. -/
inductive Outcome (α : Type) where
  | ok (v : α)
  | err (e : Error)
  | panic (p : Panic)
  deriving DecidableEq, Repr

/-- Computations that either finish or panic. -/
abbrev Go (α : Type) := Except Panic α

deriving instance DecidableEq for Except

/-- Go `make([]byte, n)`: `n` zero bytes. -/
def make (n : Nat) : List Byte := List.replicate n 0

/-- Go `buf[i] = v`. -/
def setIdx (buf : List Byte) (i : Nat) (v : Byte) : Go (List Byte) :=
  if i < buf.length then .ok (buf.set i v) else .error .indexOutOfRange

/-- Go `buf[i]` as a value. -/
def getIdx (buf : List Byte) (i : Nat) : Go Byte :=
  match buf[i]? with
  | some v => .ok v
  | none => .error .indexOutOfRange

/-- Go `buf[lo:hi]` as a value (capacity equals length for every buffer here). -/
def slice (buf : List Byte) (lo hi : Nat) : Go (List Byte) :=
  if lo ≤ hi ∧ hi ≤ buf.length then .ok ((buf.drop lo).take (hi - lo))
  else .error .sliceBoundsOutOfRange

/-- Go `buf[lo:]` as a value. -/
def sliceFrom (buf : List Byte) (lo : Nat) : Go (List Byte) :=
  slice buf lo buf.length

/-- Go `copy(dst[off:], src)`: overwrites `dst` from offset `off` with the first
`min(len(dst) - off, len(src))` bytes of `src`; returns the updated buffer and
the number of bytes copied. -/
def copyInto (dst : List Byte) (off : Nat) (src : List Byte) : Go (List Byte × Nat) :=
  if off ≤ dst.length then
    let n := min (dst.length - off) src.length
    .ok (dst.take off ++ src.take n ++ dst.drop (off + n), n)
  else .error .sliceBoundsOutOfRange

/-- Go `binary.BigEndian.PutUint32(buf[lo:hi], v)`: the slice expression, the
`_ = b[3]` bounds check, then the four byte stores. -/
def PutUint32 (buf : List Byte) (lo hi : Nat) (v : Nat) : Go (List Byte) :=
  if lo ≤ hi ∧ hi ≤ buf.length then
    if 3 < hi - lo then
      .ok ((((buf.set lo (toByte (v >>> 24))).set (lo + 1) (toByte (v >>> 16))).set
        (lo + 2) (toByte (v >>> 8))).set (lo + 3) (toByte v))
    else .error .indexOutOfRange
  else .error .sliceBoundsOutOfRange

/-- Go `binary.BigEndian.Uint32(b)`. -/
def Uint32 (b : List Byte) : Go Nat :=
  match b with
  | b0 :: b1 :: b2 :: b3 :: _ =>
    .ok (b3.val ||| b2.val <<< 8 ||| b1.val <<< 16 ||| b0.val <<< 24)
  | _ => .error .indexOutOfRange

/-- Go `io.ReadFull(r, buf)` on a reader that will deliver exactly the bytes `r`:
on success the filled buffer and the unread remainder; `io.EOF` when nothing could
be read, `io.ErrUnexpectedEOF` when the stream ended part-way. -/
def ReadFull (r : List Byte) (buf : List Byte) : Except Error (List Byte) × List Byte :=
  if buf.length ≤ r.length then (.ok (r.take buf.length), r.drop buf.length)
  else if r.length = 0 then (.error .EOF, [])
  else (.error .ErrUnexpectedEOF, [])

/-- The bytes of a Go string literal (ASCII text). -/
def strBytes (s : String) : List Byte := s.data.map (fun c => toByte c.toNat)

/-! ## handshake -/

/-- A Go `[20]byte`. -/
abbrev Bytes20 := { l : List Byte // l.length = 20 }

/-- The zero value of `[20]byte`. -/
def Bytes20.zero : Bytes20 := ⟨make 20, by simp [make]⟩

/-- Go `copy(a[:], src)` for an array `a` of type `[20]byte`. -/
def Bytes20.copyFrom (a : Bytes20) (src : List Byte) : Bytes20 :=
  ⟨src.take 20 ++ a.val.drop (min 20 src.length), by
    have h := a.property
    simp only [List.length_append, List.length_take, List.length_drop, h]
    omega⟩

/-- The type `Handshake` of package `handshake`. -/
structure Handshake where
  Pstr : List Byte
  InfoHash : Bytes20
  PeerID : Bytes20
  deriving DecidableEq

/-- The constructor `New` of package `handshake`. -/
def New (infoHash peerID : Bytes20) : Handshake :=
  { Pstr := strBytes "BitTorrent protocol", InfoHash := infoHash, PeerID := peerID }

/-- The method `(*Handshake).Serialize`. -/
def Handshake.Serialize (h : Handshake) : Go (List Byte) := do
  let buf := make (h.Pstr.length + 49)
  let buf ← setIdx buf 0 (toByte h.Pstr.length)
  let curr := 1
  let (buf, n) ← copyInto buf curr h.Pstr
  let curr := curr + n
  let (buf, n) ← copyInto buf curr (make 8)
  let curr := curr + n
  let (buf, n) ← copyInto buf curr h.InfoHash.val
  let curr := curr + n
  let (buf, _) ← copyInto buf curr h.PeerID.val
  pure buf

/-- The field extraction at the end of `handshake.Read`, from the filled
`handshakeBuf`. -/
def Read.extract (handshakeBuf : List Byte) (pstrLen : Nat) : Go Handshake := do
  let s ← slice handshakeBuf (pstrLen + 8) (pstrLen + 8 + 20)
  let infoHash := Bytes20.zero.copyFrom s
  let s ← sliceFrom handshakeBuf (pstrLen + 8 + 20)
  let peerID := Bytes20.zero.copyFrom s
  let pstr ← slice handshakeBuf 0 pstrLen
  pure { Pstr := pstr, InfoHash := infoHash, PeerID := peerID }

/-- The function `handshake.Read`: the outcome and the reader state afterwards. -/
def Read (r : List Byte) : Outcome Handshake × List Byte :=
  match ReadFull r (make 1) with
  | (.error e, r) => (.err e, r)
  | (.ok buff, r) =>
    match getIdx buff 0 with
    | .error p => (.panic p, r)
    | .ok b =>
      let pstrLen := b.val
      if pstrLen = 0 then (.err (.Errorf "pstrlen cannot be 0"), r)
      else
        match ReadFull r (make (48 + pstrLen)) with
        | (.error e, r) => (.err e, r)
        | (.ok handshakeBuf, r) =>
          match Read.extract handshakeBuf pstrLen with
          | .error p => (.panic p, r)
          | .ok h => (.ok h, r)

/-! ## message -/

/-- The type `Message` of package `message`; `ID` is a `messageID`, a `uint8`. -/
structure Message where
  ID : Byte
  Payload : List Byte
  deriving DecidableEq

/-- The constant `MsgChoke`. -/
def MsgChoke : Byte := 0

/-- The constant `MsgUnchoke`. -/
def MsgUnchoke : Byte := 1

/-- The constant `MsgInterested`. -/
def MsgInterested : Byte := 2

/-- The constant `MsgNotInterested`. -/
def MsgNotInterested : Byte := 3

/-- The constant `MsgHave`. -/
def MsgHave : Byte := 4

/-- The constant `MsgBitfield`. -/
def MsgBitfield : Byte := 5

/-- The constant `MsgRequest`. -/
def MsgRequest : Byte := 6

/-- The constant `MsgPiece`. -/
def MsgPiece : Byte := 7

/-- The constant `MsgCancel`. -/
def MsgCancel : Byte := 8

/-- The function `FormatRequest`; the result pointer is never nil. -/
def FormatRequest (index begin_ length : Int) : Go Message := do
  let payload := make 12
  let payload ← PutUint32 payload 0 4 (intToUint32 index)
  let payload ← PutUint32 payload 4 8 (intToUint32 begin_)
  let payload ← PutUint32 payload 8 12 (intToUint32 length)
  pure { ID := MsgRequest, Payload := payload }

/-- The method `(*Message).Serialize`; `none` is the nil receiver. -/
def Message.Serialize : Option Message → Go (List Byte)
  | none => pure (make 4)
  | some m => do
    let length := toUint32 (m.Payload.length + 1)
    let buf := make (toUint32 (4 + length))
    let buf ← PutUint32 buf 0 4 length
    let buf ← setIdx buf 4 m.ID
    let (buf, _) ← copyInto buf 5 m.Payload
    pure buf

/-- The construction of the result at the end of `message.read`, from the filled
`messageBuf`. -/
def read.build (messageBuf : List Byte) : Go Message := do
  let id ← getIdx messageBuf 0
  let payload ← sliceFrom messageBuf 1
  pure { ID := id, Payload := payload }

/-- The function `message.read`: the outcome (`ok none` is the `nil, nil` return)
and the reader state afterwards. -/
def read (r : List Byte) : Outcome (Option Message) × List Byte :=
  match ReadFull r (make 4) with
  | (.error e, r) => (.err e, r)
  | (.ok lengthBuff, r) =>
    match Uint32 lengthBuff with
    | .error p => (.panic p, r)
    | .ok length =>
      if length = 0 then (.ok none, r)
      else
        match ReadFull r (make length) with
        | (.error e, r) => (.err e, r)
        | (.ok messageBuf, r) =>
          match read.build messageBuf with
          | .error p => (.panic p, r)
          | .ok m => (.ok (some m), r)

/-- The verb `%d` of `fmt.Sprintf` on a non-negative integer: its decimal digits. -/
def fmtD (n : Nat) : String := Nat.repr n

/-- The method `(*Message).name`; the `switch` compares `m.ID` with the cases from
top to bottom. -/
def Message.name : Option Message → String
  | none => "KeepAlive"
  | some m =>
    if m.ID = MsgChoke then "Choke"
    else if m.ID = MsgUnchoke then "Unchoke"
    else if m.ID = MsgInterested then "Interested"
    else if m.ID = MsgNotInterested then "NotInterested"
    else if m.ID = MsgHave then "Have"
    else if m.ID = MsgBitfield then "Bitfield"
    else if m.ID = MsgRequest then "Request"
    else if m.ID = MsgPiece then "Piece"
    else if m.ID = MsgCancel then "Cancel"
    else "Unknown#" ++ fmtD m.ID.val

/-- The method `(*Message).String`. -/
def Message.String : Option Message → String
  | none => Message.name none
  | some m => Message.name (some m) ++ " [" ++ fmtD m.Payload.length ++ "]"

/-! ## Specification-side vocabulary -/

/-- The fixed names of the enumerated kinds, in the order of their kind bytes 0..8. -/
def knownNames : List String :=
  ["Choke", "Unchoke", "Interested", "NotInterested", "Have", "Bitfield", "Request", "Piece",
    "Cancel"]

/-- The results of `n` successive calls of `read` on one reader, in order, each call
starting where the previous one stopped, and the reader state after the last. -/
def readTimes : Nat → List Byte → List (Outcome (Option Message)) × List Byte
  | 0, r => ([], r)
  | n + 1, r => ((read r).1 :: (readTimes n (read r).2).1, (readTimes n (read r).2).2)

/-- The concatenation `Serialize(m1) ++ ... ++ Serialize(mn)`. -/
def serializeAll : List (Option Message) → Go (List Byte)
  | [] => pure []
  | m :: ms => do
    let a ← Message.Serialize m
    let b ← serializeAll ms
    pure (a ++ b)

/-- Reads a kind byte back from a name: the position among the fixed names, or the
decimal digits after the eight characters of `Unknown#`. -/
def nameCode (s : String) : Nat :=
  match knownNames.indexOf? s with
  | some i => i
  | none => (s.data.drop 8).foldl (fun acc c => acc * 10 + (c.toNat - 48)) 0

/-- The number a byte string denotes when read most-significant byte first. -/
def bigEndianValue (bs : List Byte) : Nat := bs.foldl (fun acc b => acc * 256 + b.val) 0

/-! ## Sample values -/

/-- A sample info hash. -/
def sampleInfoHash : Bytes20 :=
  ⟨[1, 2, 3, 4, 5, 6, 7, 8, 9, 10, 11, 12, 13, 14, 15, 16, 17, 18, 19, 20], rfl⟩

/-- A sample peer id. -/
def samplePeerID : Bytes20 :=
  ⟨[45, 71, 79, 48, 48, 48, 49, 45, 201, 202, 203, 204, 205, 206, 207, 208, 209, 210, 211,
    212], rfl⟩

/-- A handshake whose pstr has 256 bytes, one more than a length byte can hold. -/
def longPstrHandshake : Handshake :=
  { Pstr := List.replicate 256 65, InfoHash := sampleInfoHash, PeerID := samplePeerID }

/-- A typed message whose payload has `2^32` bytes. -/
def wrapMessage : Message := { ID := 0, Payload := List.replicate (2 ^ 32) 0 }

/-- A typed message whose payload has `2^32 - 1` bytes. -/
def wrapPanicMessage : Message := { ID := 0, Payload := List.replicate (2 ^ 32 - 1) 0 }

/-- A typed message of the unlisted kind 9 whose payload has `2^32` bytes. -/
def wrapUnknownMessage : Message := { ID := 9, Payload := List.replicate (2 ^ 32) 0 }

/-- A typed message of kind Piece whose payload has `2^32` bytes. -/
def wrapPieceMessage : Message := { ID := 7, Payload := List.replicate (2 ^ 32) 0 }

/-- A typed message of kind Bitfield whose payload has `2^32 - 1` bytes. -/
def wrapBitfieldMessage : Message := { ID := 5, Payload := List.replicate (2 ^ 32 - 1) 0 }

/-- A frame that declares the largest length, `2^32 - 1`, and holds that many bytes:
the kind byte 0 and `2^32 - 2` payload bytes. -/
def maxFrameStream : List Byte :=
  255 :: 255 :: 255 :: 255 :: 0 :: List.replicate (2 ^ 32 - 2) 0

/-- Three messages: a have message, a keep-alive and a message of the unlisted
kind 9. -/
def sampleMessages : List (Option Message) := [some ⟨4, [0, 0, 0, 1]⟩, none, some ⟨9, []⟩]

/-- A handshake whose pstr has 257 bytes. -/
def longerPstrHandshake : Handshake :=
  { Pstr := List.replicate 257 65, InfoHash := sampleInfoHash, PeerID := samplePeerID }

/-- A handshake stream with pstr `"ab"`, non-zero reserved bytes, and two trailing
bytes after the handshake. -/
def sampleHandshakeStream : List Byte :=
  [2, 97, 98] ++ [8, 7, 6, 5, 4, 3, 2, 1] ++ sampleInfoHash.val ++ samplePeerID.val ++ [250, 251]

/-! ## Buffer lemmas -/

theorem make_length (n : Nat) : (make n).length = n := by
  simp [make]

theorem make_succ (n : Nat) : make (n + 1) = 0 :: make n := by
  simp [make, List.replicate_succ]

theorem make_drop (n k : Nat) : (make n).drop k = make (n - k) := by
  simp [make]

/-- Copying into the untouched zero tail of a buffer that is large enough appends
the source to what has been written so far. -/
theorem copyInto_fresh (pre src : List Byte) (k off : Nat) (hoff : off = pre.length)
    (hk : src.length ≤ k) :
    copyInto (pre ++ make k) off src = .ok (pre ++ src ++ make (k - src.length), src.length) := by
  subst hoff
  have hmin : min (k) src.length = src.length := Nat.min_eq_right hk
  simp only [copyInto, List.length_append, make_length, Nat.le_add_right, if_true,
    Nat.add_sub_cancel_left, hmin, List.take_left, List.take_length]
  rw [List.drop_append_eq_append_drop]
  have h1 : pre.length + src.length - pre.length = src.length := by omega
  have h2 : List.drop (pre.length + src.length) pre = [] := by
    apply List.drop_eq_nil_of_le; omega
  simp [h1, h2, make_drop]

/-- Closed form of the handshake serialization: no bounds check fails and the
buffer is the length byte, the pstr, eight zero bytes, the info hash and the peer
id. -/
theorem Handshake.Serialize_closed (h : Handshake) :
    h.Serialize = .ok (toByte h.Pstr.length :: (h.Pstr ++ make 8 ++ h.InfoHash.val
      ++ h.PeerID.val)) := by
  have hi := h.InfoHash.property
  have hp := h.PeerID.property
  have e1 : setIdx (make (h.Pstr.length + 49)) 0 (toByte h.Pstr.length)
      = .ok ([toByte h.Pstr.length] ++ make (h.Pstr.length + 48)) := by
    simp [setIdx, make, List.replicate_succ]
  have e2 := copyInto_fresh [toByte h.Pstr.length] h.Pstr (h.Pstr.length + 48) 1 rfl
    (by omega)
  have e3 := copyInto_fresh ([toByte h.Pstr.length] ++ h.Pstr) (make 8) 48
    (1 + h.Pstr.length) (by simp; omega) (by simp [make])
  have e4 := copyInto_fresh ([toByte h.Pstr.length] ++ h.Pstr ++ make 8) h.InfoHash.val 40
    (1 + h.Pstr.length + 8) (by simp [make]; omega) (by omega)
  have e5 := copyInto_fresh ([toByte h.Pstr.length] ++ h.Pstr ++ make 8 ++ h.InfoHash.val)
    h.PeerID.val 20 (1 + h.Pstr.length + 8 + 20) (by simp [make, hi]; omega) (by omega)
  have a2 : h.Pstr.length + 48 - h.Pstr.length = 48 := by omega
  have a3 : 48 - (make 8).length = 40 := by simp [make]
  have a4 : 40 - h.InfoHash.val.length = 20 := by omega
  have a5 : 20 - h.PeerID.val.length = 0 := by omega
  rw [a2] at e2
  rw [a3, make_length] at e3
  rw [a4, hi] at e4
  rw [a5, hp] at e5
  simp only [Handshake.Serialize, e1, e2, e3, e4, e5, bind, Except.bind, pure, Except.pure]
  simp [make]

/-! ## Reader lemmas -/

theorem ReadFull_enough (r : List Byte) (n : Nat) (h : n ≤ r.length) :
    ReadFull r (make n) = (.ok (r.take n), r.drop n) := by
  simp [ReadFull, make_length, h]

theorem ReadFull_short (r : List Byte) (n : Nat) (h : r.length < n) :
    ReadFull r (make n)
      = (.error (if r.length = 0 then Error.EOF else Error.ErrUnexpectedEOF), []) := by
  have h1 : ¬ n ≤ r.length := by omega
  simp only [ReadFull, make_length, h1, if_false]
  split <;> rfl

theorem Bytes20.copyFrom_zero_val (s : List Byte) (hs : s.length = 20) :
    (Bytes20.zero.copyFrom s).val = s := by
  have h1 : s.take 20 = s := List.take_of_length_le (by omega)
  simp [Bytes20.copyFrom, Bytes20.zero, hs, make, h1]

/-- On a filled buffer of `48 + pstrLen` bytes the extraction passes every bounds
check and cuts the three fields at fixed offsets. -/
theorem Read.extract_eq (buf : List Byte) (n : Nat) (hlen : buf.length = 48 + n) :
    ∃ h, Read.extract buf n = .ok h ∧ h.Pstr = buf.take n
      ∧ h.InfoHash.val = (buf.drop (n + 8)).take 20
      ∧ h.PeerID.val = buf.drop (n + 28) := by
  have c1 : n + 8 ≤ n + 8 + 20 ∧ n + 8 + 20 ≤ buf.length := by omega
  have c2 : n + 8 + 20 ≤ buf.length ∧ buf.length ≤ buf.length := by omega
  have c3 : 0 ≤ n ∧ n ≤ buf.length := by omega
  have l1 : ((buf.drop (n + 8)).take 20).length = 20 := by
    simp [List.length_take, List.length_drop]; omega
  have l2 : (buf.drop (n + 28)).length = 20 := by
    simp [List.length_drop]; omega
  have t2 : (buf.drop (n + 8 + 20)).take (buf.length - (n + 8 + 20)) = buf.drop (n + 28) := by
    have : n + 8 + 20 = n + 28 := by omega
    rw [this]
    apply List.take_of_length_le
    simp [List.length_drop]
  refine ⟨Handshake.mk ((buf.drop 0).take (n - 0))
    (Bytes20.zero.copyFrom ((buf.drop (n + 8)).take (n + 8 + 20 - (n + 8))))
    (Bytes20.zero.copyFrom ((buf.drop (n + 8 + 20)).take (buf.length - (n + 8 + 20)))),
    ?_, ?_, ?_, ?_⟩
  · simp only [Read.extract, sliceFrom, slice, c1, c2, c3, and_self, if_true, bind,
      Except.bind, pure, Except.pure]
  · simp
  · have a : n + 8 + 20 - (n + 8) = 20 := by omega
    simp only [a]
    exact Bytes20.copyFrom_zero_val _ l1
  · simp only [t2]
    exact Bytes20.copyFrom_zero_val _ l2

/-- Closed form of `Read` on a stream that starts with a non-zero length byte `n`
and then holds at least `48 + n` bytes. -/
theorem Read_cons (n : Byte) (t : List Byte) (hn : n.val ≠ 0) (ht : 48 + n.val ≤ t.length) :
    ∃ h, Read (n :: t) = (.ok h, t.drop (48 + n.val))
      ∧ h.Pstr = (t.take (48 + n.val)).take n.val
      ∧ h.InfoHash.val = ((t.take (48 + n.val)).drop (n.val + 8)).take 20
      ∧ h.PeerID.val = (t.take (48 + n.val)).drop (n.val + 28) := by
  have hb : (t.take (48 + n.val)).length = 48 + n.val := by
    simp [List.length_take]; omega
  obtain ⟨h, he, h1, h2, h3⟩ := Read.extract_eq (t.take (48 + n.val)) n.val hb
  refine ⟨h, ?_, h1, h2, h3⟩
  have r1 : ReadFull (n :: t) (make 1) = (.ok [n], t) := by
    simp [ReadFull, make]
  have r2 := ReadFull_enough t (48 + n.val) ht
  simp only [Read, r1, getIdx, List.getElem?_cons_zero, hn, if_false, r2, he]

/-! ## Big-endian lemmas -/

theorem bigEndianValue_four (b0 b1 b2 b3 : Byte) :
    bigEndianValue [b0, b1, b2, b3]
      = b0.val * 2 ^ 24 + b1.val * 2 ^ 16 + b2.val * 2 ^ 8 + b3.val := by
  simp only [bigEndianValue, List.foldl]
  omega

theorem bigEndianValue_four_lt (b0 b1 b2 b3 : Byte) :
    bigEndianValue [b0, b1, b2, b3] < 2 ^ 32 := by
  rw [bigEndianValue_four]
  have h0 := b0.isLt
  have h1 := b1.isLt
  have h2 := b2.isLt
  have h3 := b3.isLt
  omega

/-- The shift-and-or expression of `Uint32` computes the big-endian value. -/
theorem Uint32_eq (b0 b1 b2 b3 : Byte) (t : List Byte) :
    Uint32 (b0 :: b1 :: b2 :: b3 :: t) = .ok (bigEndianValue [b0, b1, b2, b3]) := by
  have h0 := b0.isLt
  have h1 := b1.isLt
  have h2 := b2.isLt
  have h3 := b3.isLt
  have e1 : b3.val ||| b2.val <<< 8 = 2 ^ 8 * b2.val + b3.val := by
    rw [Nat.shiftLeft_eq, Nat.lor_comm, Nat.mul_comm]
    exact (Nat.mul_add_lt_is_or (by omega) _).symm
  have e2 : (2 ^ 8 * b2.val + b3.val) ||| b1.val <<< 16
      = 2 ^ 16 * b1.val + (2 ^ 8 * b2.val + b3.val) := by
    rw [Nat.shiftLeft_eq, Nat.lor_comm, Nat.mul_comm]
    exact (Nat.mul_add_lt_is_or (by omega) _).symm
  have e3 : (2 ^ 16 * b1.val + (2 ^ 8 * b2.val + b3.val)) ||| b0.val <<< 24
      = 2 ^ 24 * b0.val + (2 ^ 16 * b1.val + (2 ^ 8 * b2.val + b3.val)) := by
    rw [Nat.shiftLeft_eq, Nat.lor_comm, Nat.mul_comm]
    exact (Nat.mul_add_lt_is_or (by omega) _).symm
  simp only [Uint32, e1, e2, e3, bigEndianValue_four]
  congr 1
  omega

/-- The four bytes stored by `PutUint32` denote the stored value. -/
theorem bigEndianValue_put (v : Nat) (hv : v < 2 ^ 32) :
    bigEndianValue [toByte (v >>> 24), toByte (v >>> 16), toByte (v >>> 8), toByte v] = v := by
  rw [bigEndianValue_four]
  simp only [toByte, Nat.shiftRight_eq_div_pow]
  omega

/-- A store of a 32-bit value at offset `lo` of a buffer with at least four bytes
after `lo`. -/
theorem PutUint32_fresh (pre : List Byte) (k lo : Nat) (v : Nat) (hlo : lo = pre.length) :
    PutUint32 (pre ++ make (4 + k)) lo (lo + 4) v
      = .ok (pre ++ [toByte (v >>> 24), toByte (v >>> 16), toByte (v >>> 8), toByte v]
          ++ make k) := by
  subst hlo
  have c : pre.length ≤ pre.length + 4 ∧ pre.length + 4 ≤ (pre ++ make (4 + k)).length := by
    simp [make_length]
  have m4 : make (4 + k) = 0 :: 0 :: 0 :: 0 :: make k := by
    simp [make, List.replicate_succ, Nat.add_comm 4 k]
  simp only [PutUint32, c, and_self, if_true, Nat.add_sub_cancel_left, m4]
  simp [List.set_append]

/-! ## Message lemmas -/

/-- Closed form of the serialization of a typed message whose frame fits the
32-bit size arithmetic. -/
theorem Message.Serialize_fits (m : Message) (hlen : m.Payload.length + 5 < 2 ^ 32) :
    Message.Serialize (some m)
      = .ok ([toByte ((m.Payload.length + 1) >>> 24), toByte ((m.Payload.length + 1) >>> 16),
          toByte ((m.Payload.length + 1) >>> 8), toByte (m.Payload.length + 1)]
          ++ m.ID :: m.Payload) := by
  have u1 : toUint32 (m.Payload.length + 1) = m.Payload.length + 1 := by
    simp only [toUint32]; omega
  have u2 : toUint32 (4 + (m.Payload.length + 1)) = 4 + (m.Payload.length + 1) := by
    simp only [toUint32]; omega
  have e1 := PutUint32_fresh [] (m.Payload.length + 1) 0 (m.Payload.length + 1) rfl
  simp only [List.nil_append, Nat.zero_add] at e1
  have e2 : setIdx ([toByte ((m.Payload.length + 1) >>> 24),
      toByte ((m.Payload.length + 1) >>> 16), toByte ((m.Payload.length + 1) >>> 8),
      toByte (m.Payload.length + 1)] ++ make (m.Payload.length + 1)) 4 m.ID
      = .ok ([toByte ((m.Payload.length + 1) >>> 24), toByte ((m.Payload.length + 1) >>> 16),
          toByte ((m.Payload.length + 1) >>> 8), toByte (m.Payload.length + 1), m.ID]
          ++ make m.Payload.length) := by
    simp [setIdx, make, List.replicate_succ]
  have e3 := copyInto_fresh [toByte ((m.Payload.length + 1) >>> 24),
      toByte ((m.Payload.length + 1) >>> 16), toByte ((m.Payload.length + 1) >>> 8),
      toByte (m.Payload.length + 1), m.ID] m.Payload m.Payload.length 5 rfl (Nat.le_refl _)
  simp only [Message.Serialize, u1, u2, e1, e2, e3, bind, Except.bind, pure, Except.pure]
  simp [make]

/-- Closed form of `read` on fewer than four bytes. -/
theorem read_short_header (r : List Byte) (h : r.length < 4) :
    read r = (.err (if r.length = 0 then Error.EOF else Error.ErrUnexpectedEOF), []) := by
  simp only [read, ReadFull_short r 4 h]

/-- Closed form of `read` on a zero length word. -/
theorem read_zero (b0 b1 b2 b3 : Byte) (t : List Byte)
    (hz : bigEndianValue [b0, b1, b2, b3] = 0) :
    read (b0 :: b1 :: b2 :: b3 :: t) = (.ok none, t) := by
  have r1 : ReadFull (b0 :: b1 :: b2 :: b3 :: t) (make 4) = (.ok [b0, b1, b2, b3], t) := by
    simp [ReadFull, make]
  simp only [read, r1, Uint32_eq, hz, if_true]

/-- Closed form of `read` when the stream ends inside the declared block. -/
theorem read_short_body (b0 b1 b2 b3 : Byte) (t : List Byte)
    (hs : t.length < bigEndianValue [b0, b1, b2, b3]) :
    read (b0 :: b1 :: b2 :: b3 :: t)
      = (.err (if t.length = 0 then Error.EOF else Error.ErrUnexpectedEOF), []) := by
  have r1 : ReadFull (b0 :: b1 :: b2 :: b3 :: t) (make 4) = (.ok [b0, b1, b2, b3], t) := by
    simp [ReadFull, make]
  have hz : ¬ bigEndianValue [b0, b1, b2, b3] = 0 := by omega
  simp only [read, r1, Uint32_eq, hz, if_false, ReadFull_short t _ hs]

/-- Closed form of `read` when the declared block is available: the first byte of
the block is the kind, the rest the payload. -/
theorem read_frame (b0 b1 b2 b3 id : Byte) (t : List Byte)
    (hpos : 0 < bigEndianValue [b0, b1, b2, b3])
    (hl : bigEndianValue [b0, b1, b2, b3] ≤ t.length + 1) :
    read (b0 :: b1 :: b2 :: b3 :: id :: t)
      = (.ok (some ⟨id, t.take (bigEndianValue [b0, b1, b2, b3] - 1)⟩),
          t.drop (bigEndianValue [b0, b1, b2, b3] - 1)) := by
  have r1 : ReadFull (b0 :: b1 :: b2 :: b3 :: id :: t) (make 4)
      = (.ok [b0, b1, b2, b3], id :: t) := by
    simp [ReadFull, make]
  have hz : ¬ bigEndianValue [b0, b1, b2, b3] = 0 := by omega
  obtain ⟨k, hk⟩ : ∃ k, bigEndianValue [b0, b1, b2, b3] = k + 1 := ⟨_, (Nat.succ_pred_eq_of_pos hpos).symm⟩
  rw [hk] at hl hz ⊢
  have r2 := ReadFull_enough (id :: t) (k + 1) (by simpa using hl)
  simp only [List.take_succ_cons, List.drop_succ_cons] at r2
  have hb : read.build (id :: t.take k) = .ok ⟨id, t.take k⟩ := by
    have c : 1 ≤ (id :: List.take k t).length ∧
        (id :: List.take k t).length ≤ (id :: List.take k t).length := by simp
    simp only [read.build, getIdx, sliceFrom, slice, c, and_self, if_true, bind, Except.bind,
      pure, Except.pure, List.getElem?_cons_zero]
    simp
  simp only [read, r1, Uint32_eq, hk, hz, if_false, r2, hb, Nat.add_sub_cancel]

/-- Serialization of a typed message whose payload has exactly `2^32` bytes: the
length word wraps to 1 and the payload is not copied. -/
theorem Message.Serialize_wrap (m : Message) (hlen : m.Payload.length = 2 ^ 32) :
    Message.Serialize (some m) = .ok [0, 0, 0, 1, m.ID] := by
  have u1 : toUint32 (m.Payload.length + 1) = 1 := by
    simp only [toUint32, hlen]; decide
  have u2 : toUint32 (4 + 1) = 5 := by decide
  have e1 : PutUint32 (make 5) 0 4 1 = .ok [0, 0, 0, 1, 0] := by decide
  have e2 : setIdx [0, 0, 0, 1, 0] 4 m.ID = .ok [0, 0, 0, 1, m.ID] := by
    simp [setIdx]
  have e3 : copyInto [0, 0, 0, 1, m.ID] 5 m.Payload = .ok ([0, 0, 0, 1, m.ID], 0) := by
    simp [copyInto]
  simp only [Message.Serialize, u1, u2, e1, e2, e3, bind, Except.bind, pure, Except.pure]

/-- Serialization of a typed message whose payload has exactly `2^32 - 1` bytes:
the length word wraps to 0, the buffer has 4 bytes and the store of the kind byte
at index 4 is out of range. -/
theorem Message.Serialize_wrap_panic (m : Message) (hlen : m.Payload.length = 2 ^ 32 - 1) :
    Message.Serialize (some m) = .error .indexOutOfRange := by
  have u1 : toUint32 (m.Payload.length + 1) = 0 := by
    simp only [toUint32, hlen]; decide
  have u2 : toUint32 (4 + 0) = 4 := by decide
  have e1 : PutUint32 (make 4) 0 4 0 = .ok [0, 0, 0, 0] := by decide
  have e2 : setIdx [0, 0, 0, 0] 4 m.ID = .error .indexOutOfRange := by
    simp [setIdx]
  simp only [Message.Serialize, u1, u2, e1, e2, bind, Except.bind]

/-- Closed form of `FormatRequest`: three 32-bit stores fill the 12-byte payload. -/
theorem FormatRequest_eq (index begin_ length : Int) :
    FormatRequest index begin_ length = .ok
      { ID := 6
        Payload :=
          [toByte (intToUint32 index >>> 24), toByte (intToUint32 index >>> 16),
            toByte (intToUint32 index >>> 8), toByte (intToUint32 index)]
          ++ [toByte (intToUint32 begin_ >>> 24), toByte (intToUint32 begin_ >>> 16),
            toByte (intToUint32 begin_ >>> 8), toByte (intToUint32 begin_)]
          ++ [toByte (intToUint32 length >>> 24), toByte (intToUint32 length >>> 16),
            toByte (intToUint32 length >>> 8), toByte (intToUint32 length)] } := by
  have e1 := PutUint32_fresh [] 8 0 (intToUint32 index) rfl
  have e2 := PutUint32_fresh [toByte (intToUint32 index >>> 24),
    toByte (intToUint32 index >>> 16), toByte (intToUint32 index >>> 8),
    toByte (intToUint32 index)] 4 4 (intToUint32 begin_) rfl
  have e3 := PutUint32_fresh ([toByte (intToUint32 index >>> 24),
    toByte (intToUint32 index >>> 16), toByte (intToUint32 index >>> 8),
    toByte (intToUint32 index)] ++ [toByte (intToUint32 begin_ >>> 24),
    toByte (intToUint32 begin_ >>> 16), toByte (intToUint32 begin_ >>> 8),
    toByte (intToUint32 begin_)]) 0 8 (intToUint32 length) rfl
  simp only [List.nil_append, Nat.zero_add, Nat.reduceAdd] at e1 e2 e3
  have m0 : make 0 = [] := rfl
  rw [m0, List.append_nil] at e3
  simp only [FormatRequest, MsgRequest, e1, e2, e3, bind, Except.bind, pure, Except.pure]

theorem intToUint32_lt (i : Int) : intToUint32 i < 2 ^ 32 := by
  unfold intToUint32
  omega

theorem intToUint32_of_range (i : Int) (h0 : 0 ≤ i) (h1 : i < 2 ^ 32) :
    (intToUint32 i : Int) = i := by
  unfold intToUint32
  omega

/-! ## Serialization across the 32-bit wrap -/

/-- Copying a source that is at least as long as the untouched zero tail fills the
tail with the first bytes of the source. -/
theorem copyInto_fill (pre src : List Byte) (k off : Nat) (hoff : off = pre.length)
    (hk : k ≤ src.length) :
    copyInto (pre ++ make k) off src = .ok (pre ++ src.take k, k) := by
  subst hoff
  have hmin : min k src.length = k := Nat.min_eq_left hk
  simp only [copyInto, List.length_append, make_length, Nat.le_add_right, if_true,
    Nat.add_sub_cancel_left, hmin, List.take_left]
  have h2 : List.drop (pre.length + k) (pre ++ make k) = [] := by
    apply List.drop_eq_nil_of_le
    simp [make_length]
  rw [h2, List.append_nil]

/-- Serialization of any typed message whose wrapped length word `L` is positive
and leaves room for the four-byte addition: the frame declares `L` and carries the
first `L - 1` payload bytes. -/
theorem Message.Serialize_trunc (m : Message) (L : Nat)
    (hL : toUint32 (m.Payload.length + 1) = L) (hpos : 1 ≤ L) (hroom : L + 4 < 2 ^ 32) :
    Message.Serialize (some m)
      = .ok ([toByte (L >>> 24), toByte (L >>> 16), toByte (L >>> 8), toByte L]
          ++ m.ID :: m.Payload.take (L - 1)) := by
  obtain ⟨k, rfl⟩ : ∃ k, L = k + 1 := ⟨L - 1, by omega⟩
  have hk : k ≤ m.Payload.length := by
    have : (m.Payload.length + 1) % 2 ^ 32 ≤ m.Payload.length + 1 := Nat.mod_le _ _
    simp only [toUint32] at hL
    omega
  have u2 : toUint32 (4 + (k + 1)) = 4 + (k + 1) := by
    simp only [toUint32]; omega
  have e1 := PutUint32_fresh [] (k + 1) 0 (k + 1) rfl
  simp only [List.nil_append, Nat.zero_add] at e1
  have e2 : setIdx ([toByte ((k + 1) >>> 24), toByte ((k + 1) >>> 16),
      toByte ((k + 1) >>> 8), toByte (k + 1)] ++ make (k + 1)) 4 m.ID
      = .ok ([toByte ((k + 1) >>> 24), toByte ((k + 1) >>> 16), toByte ((k + 1) >>> 8),
          toByte (k + 1), m.ID] ++ make k) := by
    simp [setIdx, make, List.replicate_succ]
  have e3 := copyInto_fill [toByte ((k + 1) >>> 24), toByte ((k + 1) >>> 16),
      toByte ((k + 1) >>> 8), toByte (k + 1), m.ID] m.Payload k 5 rfl hk
  simp only [Message.Serialize, hL, u2, e1, e2, e3, bind, Except.bind, pure, Except.pure,
    Nat.add_sub_cancel]
  simp

/-- Serialization of any typed message whose length word wraps to 0: the buffer has
four bytes and the store of the kind byte at index 4 is out of range. -/
theorem Message.Serialize_zero_word (m : Message)
    (hL : toUint32 (m.Payload.length + 1) = 0) :
    Message.Serialize (some m) = .error .indexOutOfRange := by
  have u2 : toUint32 (4 + 0) = 4 := by decide
  have e1 : PutUint32 (make 4) 0 4 0 = .ok [0, 0, 0, 0] := by decide
  have e2 : setIdx [0, 0, 0, 0] 4 m.ID = .error .indexOutOfRange := by
    simp [setIdx]
  simp only [Message.Serialize, hL, u2, e1, e2, bind, Except.bind]

/-- Serialization of any typed message whose length word is within four of `2^32`:
the buffer size wraps below 4 and the slice `buf[0:4]` is out of range. -/
theorem Message.Serialize_small_buffer (m : Message)
    (hL : 2 ^ 32 ≤ toUint32 (m.Payload.length + 1) + 4) :
    Message.Serialize (some m) = .error .sliceBoundsOutOfRange := by
  have hlt : toUint32 (m.Payload.length + 1) < 2 ^ 32 := Nat.mod_lt _ (by decide)
  have hs : toUint32 (4 + toUint32 (m.Payload.length + 1)) < 4 := by
    generalize toUint32 (m.Payload.length + 1) = L at hL hlt
    simp only [toUint32]
    omega
  have e1 : PutUint32 (make (toUint32 (4 + toUint32 (m.Payload.length + 1)))) 0 4
      (toUint32 (m.Payload.length + 1)) = .error .sliceBoundsOutOfRange := by
    have c : ¬ (0 ≤ 4 ∧ 4 ≤ (make (toUint32 (4 + toUint32 (m.Payload.length + 1)))).length) := by
      rw [make_length]; omega
    simp only [PutUint32, c, if_false]
  simp only [Message.Serialize, e1, bind, Except.bind]

/-- The four bytes `PutUint32` stores for the value that four bytes denote are those
four bytes. -/
theorem put_bigEndianValue (b0 b1 b2 b3 : Byte) :
    [toByte (bigEndianValue [b0, b1, b2, b3] >>> 24),
      toByte (bigEndianValue [b0, b1, b2, b3] >>> 16),
      toByte (bigEndianValue [b0, b1, b2, b3] >>> 8),
      toByte (bigEndianValue [b0, b1, b2, b3])] = [b0, b1, b2, b3] := by
  have h0 := b0.isLt
  have h1 := b1.isLt
  have h2 := b2.isLt
  have h3 := b3.isLt
  rw [bigEndianValue_four]
  simp only [List.cons.injEq, and_true]
  refine ⟨?_, ?_, ?_, ?_⟩ <;>
  · apply Fin.ext
    simp only [toByte, Nat.shiftRight_eq_div_pow]
    omega

/-- The three ways `Serialize` of a typed message ends, by the wrapped length word
`L = uint32(len(Payload) + 1)`: `L = 0` fails at `buf[4]`; `L` within four of
`2^32` fails at `buf[0:4]`; otherwise the frame declares `L` and carries the first
`L - 1` payload bytes. -/
theorem Message.Serialize_cases (m : Message) :
    (toUint32 (m.Payload.length + 1) = 0
        ∧ Message.Serialize (some m) = .error .indexOutOfRange)
    ∨ (2 ^ 32 ≤ toUint32 (m.Payload.length + 1) + 4
        ∧ Message.Serialize (some m) = .error .sliceBoundsOutOfRange)
    ∨ (1 ≤ toUint32 (m.Payload.length + 1) ∧ toUint32 (m.Payload.length + 1) + 4 < 2 ^ 32
        ∧ Message.Serialize (some m)
          = .ok ([toByte (toUint32 (m.Payload.length + 1) >>> 24),
              toByte (toUint32 (m.Payload.length + 1) >>> 16),
              toByte (toUint32 (m.Payload.length + 1) >>> 8),
              toByte (toUint32 (m.Payload.length + 1))]
              ++ m.ID :: m.Payload.take (toUint32 (m.Payload.length + 1) - 1))) := by
  by_cases h0 : toUint32 (m.Payload.length + 1) = 0
  · exact Or.inl ⟨h0, Message.Serialize_zero_word m h0⟩
  · by_cases h1 : 2 ^ 32 ≤ toUint32 (m.Payload.length + 1) + 4
    · exact Or.inr (Or.inl ⟨h1, Message.Serialize_small_buffer m h1⟩)
    · exact Or.inr (Or.inr ⟨by omega, by omega,
        Message.Serialize_trunc m _ rfl (by omega) (by omega)⟩)

/-- The wrapped length word never exceeds the true frame length. -/
theorem toUint32_le (n : Nat) : toUint32 n ≤ n := Nat.mod_le _ _

theorem toUint32_lt (n : Nat) : toUint32 n < 2 ^ 32 := Nat.mod_lt _ (by decide)

/-- Re-serializing what `read` returned for a frame whose length word leaves room
for the four-byte addition gives back the bytes that `read` consumed. -/
theorem reserialize_frame (b0 b1 b2 b3 id : Byte) (t : List Byte)
    (hpos : 0 < bigEndianValue [b0, b1, b2, b3])
    (hl : bigEndianValue [b0, b1, b2, b3] ≤ t.length + 1)
    (hroom : bigEndianValue [b0, b1, b2, b3] + 4 < 2 ^ 32) :
    Message.Serialize (some ⟨id, t.take (bigEndianValue [b0, b1, b2, b3] - 1)⟩)
      = .ok ([b0, b1, b2, b3] ++ id :: t.take (bigEndianValue [b0, b1, b2, b3] - 1)) := by
  have hlen : (t.take (bigEndianValue [b0, b1, b2, b3] - 1)).length
      = bigEndianValue [b0, b1, b2, b3] - 1 := by
    rw [List.length_take]; omega
  have h := Message.Serialize_fits ⟨id, t.take (bigEndianValue [b0, b1, b2, b3] - 1)⟩
    (by simp only [hlen]; omega)
  simp only [hlen] at h
  have e : bigEndianValue [b0, b1, b2, b3] - 1 + 1 = bigEndianValue [b0, b1, b2, b3] := by
    omega
  rw [e, put_bigEndianValue] at h
  exact h

/-- On a frame that declares `2^32 - 1` bytes and holds them, `read` returns a
message with `2^32 - 2` payload bytes, and `Serialize` of that message fails at
`buf[0:4]`. -/
theorem read_max_frame (t : List Byte) (ht : t.length = 2 ^ 32 - 2) :
    ∃ m, read (255 :: 255 :: 255 :: 255 :: 0 :: t) = (.ok (some m), [])
      ∧ m.ID = 0 ∧ m.Payload.length = 2 ^ 32 - 2
      ∧ Message.Serialize (some m) = .error .sliceBoundsOutOfRange := by
  have hv : bigEndianValue [255, 255, 255, 255] = 2 ^ 32 - 1 := by decide
  have hf := read_frame 255 255 255 255 0 t (by rw [hv]; decide) (by rw [hv, ht]; decide)
  have hd : t.drop (bigEndianValue [255, 255, 255, 255] - 1) = [] :=
    List.drop_eq_nil_of_le (by rw [hv, ht]; decide)
  have hk : t.take (bigEndianValue [255, 255, 255, 255] - 1) = t :=
    List.take_of_length_le (by rw [hv, ht]; decide)
  rw [hd, hk] at hf
  refine ⟨⟨0, t⟩, hf, rfl, ht, ?_⟩
  apply Message.Serialize_small_buffer
  simp only [ht, toUint32]
  decide

theorem intToUint32_cast (i : Int) : (intToUint32 i : Int) = i % 2 ^ 32 := by
  unfold intToUint32
  omega

/-! ## Frames and rendering -/

/-- Closed form of `read` on a frame built from a length word `L`, a kind byte and
`L - 1` payload bytes, followed by anything. -/
theorem read_after_put (L : Nat) (id : Byte) (q rest : List Byte) (hpos : 1 ≤ L)
    (hlt : L < 2 ^ 32) (hq : q.length = L - 1) :
    read ([toByte (L >>> 24), toByte (L >>> 16), toByte (L >>> 8), toByte L]
        ++ id :: q ++ rest) = (.ok (some ⟨id, q⟩), rest) := by
  have hv := bigEndianValue_put L hlt
  have hf := read_frame (toByte (L >>> 24)) (toByte (L >>> 16)) (toByte (L >>> 8)) (toByte L)
    id (q ++ rest) (by omega) (by rw [hv, List.length_append]; omega)
  rw [hv, ← hq, List.take_left, List.drop_left] at hf
  simpa using hf

/-- Every message that is keep-alive or fits the 32-bit size arithmetic serializes,
and `read` takes exactly that frame off the front of a stream. -/
theorem read_serialized (m : Option Message)
    (hfit : ∀ x, m = some x → x.Payload.length ≤ 2 ^ 32 - 6) (rest : List Byte) :
    ∃ bs, Message.Serialize m = .ok bs ∧ read (bs ++ rest) = (.ok m, rest) := by
  cases m with
  | none => exact ⟨[0, 0, 0, 0], rfl, read_zero 0 0 0 0 rest rfl⟩
  | some x =>
    have hx := hfit x rfl
    refine ⟨_, Message.Serialize_fits x (by omega), ?_⟩
    have h := read_after_put (x.Payload.length + 1) x.ID x.Payload rest (by omega) (by omega)
      (by omega)
    simpa using h

/-- A kind byte outside `0..8` falls through every case of the `switch`. -/
theorem Message.name_unknown (m : Message) (hk : 9 ≤ m.ID.val) :
    Message.name (some m) = "Unknown#" ++ fmtD m.ID.val := by
  have ne : ∀ c : Byte, c.val < 9 → ¬ m.ID = c := by
    intro c hc h
    rw [h] at hk
    omega
  simp only [Message.name, if_neg (ne MsgChoke (by decide)), if_neg (ne MsgUnchoke (by decide)),
    if_neg (ne MsgInterested (by decide)), if_neg (ne MsgNotInterested (by decide)),
    if_neg (ne MsgHave (by decide)), if_neg (ne MsgBitfield (by decide)),
    if_neg (ne MsgRequest (by decide)), if_neg (ne MsgPiece (by decide)),
    if_neg (ne MsgCancel (by decide))]

set_option maxRecDepth 100000 in
/-- The kind byte is recovered from every one of the 256 names. -/
theorem nameCode_name_byte : ∀ k : Byte, nameCode (Message.name (some ⟨k, []⟩)) = k.val := by
  decide

set_option maxRecDepth 100000 in
/-- None of the 256 names of typed messages is the keep-alive name. -/
theorem name_byte_ne_keepalive : ∀ k : Byte, Message.name (some ⟨k, []⟩) ≠ "KeepAlive" := by
  decide

/-- The name of a typed message depends on its kind byte only, and the kind byte is
recovered from it. -/
theorem nameCode_name (m : Message) : nameCode (Message.name (some m)) = m.ID.val :=
  nameCode_name_byte m.ID

/-- The rendering of a typed message ends with a closing bracket. -/
theorem Message.String_last (m : Message) :
    (Message.String (some m)).data.getLast? = some (Char.ofNat 93) := by
  have h : (Message.String (some m)).data
      = (Message.name (some m) ++ " [" ++ fmtD m.Payload.length).data ++ [Char.ofNat 93] := by
    simp only [Message.String, String.data_append]
  rw [h, List.getLast?_concat]

/-- Reading as many times as there are frames in a concatenation of serialized
messages returns the messages in order and leaves what follows the concatenation. -/
theorem readTimes_serializeAll (ms : List (Option Message))
    (hms : ∀ x, some x ∈ ms → x.Payload.length ≤ 2 ^ 32 - 6) :
    ∃ s, serializeAll ms = .ok s ∧ ∀ (n : Nat) (tail : List Byte),
      readTimes (ms.length + n) (s ++ tail)
        = (ms.map Outcome.ok ++ (readTimes n tail).1, (readTimes n tail).2) := by
  induction ms with
  | nil =>
    refine ⟨[], rfl, ?_⟩
    intro n tail
    simp
  | cons m ms ih =>
    obtain ⟨s, hs, hrec⟩ := ih (fun x hx => hms x (List.mem_cons_of_mem _ hx))
    obtain ⟨a, ha, _⟩ := read_serialized m
      (fun x hx => hms x (by rw [hx]; exact List.mem_cons_self _ _)) []
    refine ⟨a ++ s, ?_, ?_⟩
    · simp only [serializeAll, ha, hs, bind, Except.bind, pure, Except.pure]
    · intro n tail
      obtain ⟨a', ha', hr⟩ := read_serialized m
        (fun x hx => hms x (by rw [hx]; exact List.mem_cons_self _ _)) (s ++ tail)
      have e : a' = a := Except.ok.inj (ha'.symm.trans ha)
      rw [e] at hr
      have hn : (m :: ms).length + n = (ms.length + n) + 1 := by
        simp only [List.length_cons]; omega
      rw [hn, List.append_assoc]
      simp only [readTimes, hr, hrec n tail, List.map_cons, List.cons_append]

/-! ## Handshake reader: remaining cases -/

/-- Closed form of `Read` on a stream that starts with a zero length byte. -/
theorem Read_cons_zero (n : Byte) (t : List Byte) (hn : n.val = 0) :
    Read (n :: t) = (.err (.Errorf "pstrlen cannot be 0"), t) := by
  have r1 : ReadFull (n :: t) (make 1) = (.ok [n], t) := by
    simp [ReadFull, make]
  simp only [Read, r1, getIdx, List.getElem?_cons_zero, hn, if_true]

/-- Closed form of `Read` when the stream ends inside the handshake block. -/
theorem Read_cons_short (n : Byte) (t : List Byte) (hn : n.val ≠ 0)
    (ht : t.length < 48 + n.val) :
    Read (n :: t)
      = (.err (if t.length = 0 then Error.EOF else Error.ErrUnexpectedEOF), []) := by
  have r1 : ReadFull (n :: t) (make 1) = (.ok [n], t) := by
    simp [ReadFull, make]
  simp only [Read, r1, getIdx, List.getElem?_cons_zero, hn, if_false,
    ReadFull_short t (48 + n.val) ht]

/-- The three fields `Read` returns, as cuts of the bytes after the length byte. -/
theorem Read_cons_fields (n : Byte) (t : List Byte) (hn : n.val ≠ 0)
    (ht : 48 + n.val ≤ t.length) :
    ∃ h, Read (n :: t) = (.ok h, t.drop (48 + n.val))
      ∧ h.Pstr = t.take n.val
      ∧ h.InfoHash.val = (t.drop (n.val + 8)).take 20
      ∧ h.PeerID.val = ((t.drop (n.val + 8)).drop 20).take 20 := by
  obtain ⟨h, hr, h1, h2, h3⟩ := Read_cons n t hn ht
  refine ⟨h, hr, ?_, ?_, ?_⟩
  · rw [h1, List.take_take, Nat.min_eq_left (by omega)]
  · rw [h2, List.drop_take, List.take_take]
    have e : min 20 (48 + n.val - (n.val + 8)) = 20 := by omega
    rw [e]
  · rw [h3, List.drop_take, List.drop_drop]
    have e1 : 48 + n.val - (n.val + 28) = 20 := by omega
    have e2 : n.val + 8 + 20 = n.val + 28 := by omega
    rw [e1, e2]

/-- Two handshakes with the same three fields are equal. -/
theorem Handshake.eq_of_fields (a b : Handshake) (h1 : a.Pstr = b.Pstr)
    (h2 : a.InfoHash.val = b.InfoHash.val) (h3 : a.PeerID.val = b.PeerID.val) : a = b := by
  cases a with
  | mk p i q =>
    cases b with
    | mk p' i' q' =>
      simp only at h1
      have e2 : i = i' := Subtype.ext h2
      have e3 : q = q' := Subtype.ext h3
      rw [h1, e2, e3]

/-! ## Handshake codec: claims -/

/-- C1: Handshake round trip. For every handshake whose pstr is non-empty and at
most 255 bytes long, `Serialize` passes all bounds checks, and `Read` on a stream
holding exactly the serialized bytes succeeds, consumes the whole stream, and
returns a handshake with the same `Pstr`, `InfoHash` and `PeerID`. -/
theorem C1_handshake_roundtrip (h : Handshake) (hpos : 0 < h.Pstr.length)
    (hmax : h.Pstr.length ≤ 255) :
    ∃ bs h', h.Serialize = .ok bs ∧ Read bs = (.ok h', [])
      ∧ h'.Pstr = h.Pstr ∧ h'.InfoHash = h.InfoHash ∧ h'.PeerID = h.PeerID := by
  have hi := h.InfoHash.property
  have hp := h.PeerID.property
  have hv : (toByte h.Pstr.length).val = h.Pstr.length := by
    simp only [toByte]; omega
  have hlen : (h.Pstr ++ make 8 ++ h.InfoHash.val ++ h.PeerID.val).length
      = 48 + (toByte h.Pstr.length).val := by
    simp only [List.length_append, make_length, hi, hp, hv]; omega
  obtain ⟨h', hr, h1, h2, h3⟩ := Read_cons (toByte h.Pstr.length)
    (h.Pstr ++ make 8 ++ h.InfoHash.val ++ h.PeerID.val) (by omega) (by omega)
  have tk : (h.Pstr ++ make 8 ++ h.InfoHash.val ++ h.PeerID.val).take
      (48 + (toByte h.Pstr.length).val)
      = h.Pstr ++ make 8 ++ h.InfoHash.val ++ h.PeerID.val :=
    List.take_of_length_le (by omega)
  have dr : (h.Pstr ++ make 8 ++ h.InfoHash.val ++ h.PeerID.val).drop
      (48 + (toByte h.Pstr.length).val) = [] :=
    List.drop_eq_nil_of_le (by omega)
  rw [tk] at h1 h2 h3
  rw [dr] at hr
  rw [hv] at h1 h2 h3
  refine ⟨_, h', Handshake.Serialize_closed h, hr, ?_, ?_, ?_⟩
  · rw [h1]
    simp only [List.append_assoc]
    exact List.take_left' rfl
  · apply Subtype.ext
    rw [h2]
    have e : h.Pstr ++ make 8 ++ h.InfoHash.val ++ h.PeerID.val
        = (h.Pstr ++ make 8) ++ (h.InfoHash.val ++ h.PeerID.val) := by
      simp only [List.append_assoc]
    rw [e, List.drop_left' (by simp [make_length])]
    exact List.take_left' hi
  · apply Subtype.ext
    rw [h3]
    exact List.drop_left' (by simp [make_length, hi])

/-- Witness for C1: the handshake built by `New`, with pstr `"BitTorrent protocol"`. -/
theorem C1_handshake_roundtrip_witness :
    (New sampleInfoHash samplePeerID).Pstr.length = 19 ∧
    ∃ bs h', (New sampleInfoHash samplePeerID).Serialize = .ok bs ∧ Read bs = (.ok h', [])
      ∧ h'.Pstr = (New sampleInfoHash samplePeerID).Pstr
      ∧ h'.InfoHash = (New sampleInfoHash samplePeerID).InfoHash
      ∧ h'.PeerID = (New sampleInfoHash samplePeerID).PeerID :=
  ⟨by decide, C1_handshake_roundtrip (New sampleInfoHash samplePeerID) (by decide) (by decide)⟩

/-- C3, as the code has it: for every handshake, `Serialize` passes all bounds
checks and returns `49 + len(Pstr)` bytes: one byte equal to `len(Pstr) mod 256`
(which is `len(Pstr)` itself whenever that is at most 255), the bytes of `Pstr`,
eight zero bytes, the 20 bytes of `InfoHash` and the 20 bytes of `PeerID`, in that
order. -/
theorem C3_handshake_layout (h : Handshake) :
    ∃ bs, h.Serialize = .ok bs ∧ bs.length = 49 + h.Pstr.length ∧
      ∃ b : Byte, b.val = h.Pstr.length % 256 ∧
        bs = [b] ++ h.Pstr ++ [0, 0, 0, 0, 0, 0, 0, 0] ++ h.InfoHash.val ++ h.PeerID.val := by
  have hi := h.InfoHash.property
  have hp := h.PeerID.property
  refine ⟨_, Handshake.Serialize_closed h, ?_, toByte h.Pstr.length, rfl, ?_⟩
  · simp only [List.length_cons, List.length_append, make_length, hi, hp]; omega
  · simp [make, List.replicate_succ]

/-- C3 fails as stated: for a pstr of 256 bytes the first serialized byte is 0,
not the pstr length. -/
theorem C3_handshake_layout_counterexample :
    ∃ b rest, longPstrHandshake.Serialize = .ok (b :: rest) ∧ b.val = 0
      ∧ longPstrHandshake.Pstr.length = 256 := by
  have hl : longPstrHandshake.Pstr.length = 256 := List.length_replicate _ _
  refine ⟨_, _, Handshake.Serialize_closed longPstrHandshake, ?_, hl⟩
  rw [hl]
  rfl

/-- C6: Zero pstr length is rejected. On every stream whose first byte is 0,
whatever follows, `Read` returns no handshake and the error built from the text
`pstrlen cannot be 0`, which is not a stream error; only that first byte is
consumed. -/
theorem C6_zero_pstrlen_rejected (rest : List Byte) :
    Read (0 :: rest) = (.err (.Errorf "pstrlen cannot be 0"), rest)
      ∧ (Error.Errorf "pstrlen cannot be 0").isStreamError = false := by
  refine ⟨?_, rfl⟩
  have r1 : ReadFull (0 :: rest) (make 1) = (.ok [0], rest) := by
    simp [ReadFull, make]
  simp only [Read, r1, getIdx, List.getElem?_cons_zero, Fin.val_zero, if_true]

/-- C7: Handshake short read. On the empty stream, and on every stream whose first
byte `n` is non-zero and that holds fewer than `48 + n` bytes after it, `Read`
returns no handshake and an error that is `io.EOF` or `io.ErrUnexpectedEOF`. -/
theorem C7_handshake_short_read (r : List Byte)
    (hshort : r = [] ∨ ∃ n t, r = n :: t ∧ n.val ≠ 0 ∧ t.length < 48 + n.val) :
    ∃ e, (Read r).1 = .err e ∧ (e = .EOF ∨ e = .ErrUnexpectedEOF) ∧ e.isStreamError = true := by
  rcases hshort with h | ⟨n, t, h, hn, ht⟩
  · subst h
    exact ⟨.EOF, by decide, Or.inl rfl, rfl⟩
  · subst h
    have r1 : ReadFull (n :: t) (make 1) = (.ok [n], t) := by
      simp [ReadFull, make]
    have r2 := ReadFull_short t (48 + n.val) ht
    refine ⟨if t.length = 0 then .EOF else .ErrUnexpectedEOF, ?_, ?_, ?_⟩
    · simp only [Read, r1, getIdx, List.getElem?_cons_zero, hn, if_false, r2]
    · split
      · exact Or.inl rfl
      · exact Or.inr rfl
    · split <;> rfl

/-- Witness for C7: a stream that ends three bytes into a handshake. -/
theorem C7_handshake_short_read_witness :
    ([66, 105] : List Byte).length < 48 + (19 : Byte).val ∧
    ∃ e, (Read [19, 66, 105]).1 = .err e ∧ (e = .EOF ∨ e = .ErrUnexpectedEOF)
      ∧ e.isStreamError = true :=
  ⟨by decide,
    C7_handshake_short_read [19, 66, 105] (Or.inr ⟨19, [66, 105], rfl, by decide, by decide⟩)⟩

/-- C10: Handshake field extraction. On every stream whose first byte `n` is
non-zero and that holds at least `48 + n` further bytes, with `b` the first
`48 + n` of them, `Read` succeeds (no error, no failed bounds check), leaves the
bytes after `b` unread, and returns `Pstr = b[0..n)`, `InfoHash = b[n+8..n+28)` and
`PeerID = b[n+28..n+48)`, the last 20 bytes of `b`. -/
theorem C10_handshake_extraction (n : Byte) (t : List Byte) (hn : n.val ≠ 0)
    (ht : 48 + n.val ≤ t.length) :
    ∃ h, Read (n :: t) = (.ok h, t.drop (48 + n.val))
      ∧ h.Pstr = (t.take (48 + n.val)).take n.val
      ∧ h.InfoHash.val = ((t.take (48 + n.val)).drop (n.val + 8)).take 20
      ∧ h.PeerID.val = ((t.take (48 + n.val)).drop (n.val + 28)).take 20
      ∧ h.PeerID.val = (t.take (48 + n.val)).drop ((t.take (48 + n.val)).length - 20) := by
  obtain ⟨h, hr, h1, h2, h3⟩ := Read_cons n t hn ht
  have hb : (t.take (48 + n.val)).length = 48 + n.val := by
    simp [List.length_take]; omega
  have hl : h.PeerID.val.length = 20 := h.PeerID.property
  refine ⟨h, hr, h1, h2, ?_, ?_⟩
  · rw [← h3]
    exact (List.take_of_length_le (by omega)).symm
  · have e : (t.take (48 + n.val)).length - 20 = n.val + 28 := by omega
    rw [e, h3]

/-- Witness for C10: a stream with pstr `"ab"`, non-zero reserved bytes and two
trailing bytes. -/
theorem C10_handshake_extraction_witness :
    ∃ h, Read sampleHandshakeStream = (.ok h, [250, 251])
      ∧ h.Pstr = [97, 98] ∧ h.InfoHash = sampleInfoHash ∧ h.PeerID = samplePeerID := by
  obtain ⟨h, hr, h1, h2, h3, _⟩ := C10_handshake_extraction 2 sampleHandshakeStream.tail
    (by decide) (by decide)
  exact ⟨h, hr, h1, Subtype.ext h2, Subtype.ext h3⟩

/-- C15: Reserved bytes are ignored on receive. For any two handshake streams with
the same first byte `n` and the same length that agree on the `n` pstr bytes and on
everything from offset `9 + n` on (so that they may differ only in the eight
reserved bytes at offsets `1 + n .. 9 + n`), `Read` returns the same outcome: the
same error, or handshakes equal in `Pstr`, `InfoHash` and `PeerID`. -/
theorem C15_reserved_ignored (n : Byte) (t1 t2 : List Byte) (hlen : t1.length = t2.length)
    (hpstr : t1.take n.val = t2.take n.val)
    (hrest : t1.drop (n.val + 8) = t2.drop (n.val + 8)) :
    (Read (n :: t1)).1 = (Read (n :: t2)).1 := by
  by_cases hn : n.val = 0
  · rw [Read_cons_zero n t1 hn, Read_cons_zero n t2 hn]
  · by_cases ht : 48 + n.val ≤ t1.length
    · obtain ⟨a, ha, a1, a2, a3⟩ := Read_cons_fields n t1 hn ht
      obtain ⟨b, hb, b1, b2, b3⟩ := Read_cons_fields n t2 hn (by omega)
      have hab : a = b := by
        apply Handshake.eq_of_fields
        · rw [a1, b1, hpstr]
        · rw [a2, b2, hrest]
        · rw [a3, b3, hrest]
      rw [ha, hb, hab]
    · rw [Read_cons_short n t1 hn (by omega), Read_cons_short n t2 hn (by omega), hlen]

/-- Witness for C15: the sample handshake stream and the same stream with its eight
reserved bytes set to zero are read to the same handshake. -/
theorem C15_reserved_ignored_witness :
    (Read (2 :: ([97, 98] ++ [8, 7, 6, 5, 4, 3, 2, 1] ++ sampleInfoHash.val
        ++ samplePeerID.val))).1
      = (Read (2 :: ([97, 98] ++ [0, 0, 0, 0, 0, 0, 0, 0] ++ sampleInfoHash.val
        ++ samplePeerID.val))).1 :=
  C15_reserved_ignored 2 _ _ (by decide) (by decide) (by decide)

/-- C18: The handshake round trip fails outside the valid pstr range. For every
handshake whose pstr is empty or longer than 255 bytes, `Serialize` writes the
length byte `len(Pstr) mod 256` and `Read` on the serialized bytes does not return
a handshake equal to the original: when `len(Pstr) mod 256` is 0 it fails with the
error `pstrlen cannot be 0`; otherwise it succeeds with `Pstr` cut down to its
first `len(Pstr) mod 256` bytes and with `InfoHash` and `PeerID` taken at the
offsets that follow that shorter pstr, while the original fields sit at the
offsets that follow the full pstr. -/
theorem C18_handshake_roundtrip_fails (h : Handshake)
    (hbad : h.Pstr.length = 0 ∨ 255 < h.Pstr.length) :
    ∃ bs b rest, h.Serialize = .ok bs ∧ bs = b :: rest ∧ b.val = h.Pstr.length % 256
      ∧ (Read bs).1 ≠ .ok h
      ∧ (h.Pstr.length % 256 = 0 → (Read bs).1 = .err (.Errorf "pstrlen cannot be 0"))
      ∧ (h.Pstr.length % 256 ≠ 0 → ∃ h', (Read bs).1 = .ok h'
          ∧ h'.Pstr = h.Pstr.take (h.Pstr.length % 256)
          ∧ h'.Pstr.length = h.Pstr.length % 256
          ∧ h'.InfoHash.val = (bs.drop (1 + h.Pstr.length % 256 + 8)).take 20
          ∧ h'.PeerID.val = (bs.drop (1 + h.Pstr.length % 256 + 28)).take 20
          ∧ h.InfoHash.val = (bs.drop (1 + h.Pstr.length + 8)).take 20
          ∧ h.PeerID.val = (bs.drop (1 + h.Pstr.length + 28)).take 20) := by
  have hi := h.InfoHash.property
  have hp := h.PeerID.property
  have hv : (toByte h.Pstr.length).val = h.Pstr.length % 256 := rfl
  have hmod : h.Pstr.length % 256 < 256 := Nat.mod_lt _ (by decide)
  have hle : h.Pstr.length % 256 ≤ h.Pstr.length := Nat.mod_le _ _
  have htl : (h.Pstr ++ make 8 ++ h.InfoHash.val ++ h.PeerID.val).length
      = h.Pstr.length + 48 := by
    simp only [List.length_append, make_length, hi, hp]
  refine ⟨_, toByte h.Pstr.length, _, Handshake.Serialize_closed h, rfl, hv, ?_, ?_, ?_⟩
  · by_cases hz : h.Pstr.length % 256 = 0
    · rw [Read_cons_zero _ _ (hv.trans hz)]
      intro hc
      cases hc
    · obtain ⟨h', hr, h1, _, _⟩ := Read_cons_fields (toByte h.Pstr.length)
        (h.Pstr ++ make 8 ++ h.InfoHash.val ++ h.PeerID.val) (by omega) (by omega)
      rw [hr]
      intro hc
      have e : h' = h := Outcome.ok.inj hc
      have hl := congrArg List.length h1
      rw [e, List.length_take, hv, htl] at hl
      omega
  · intro hz
    rw [Read_cons_zero _ _ (hv.trans hz)]
  · intro hz
    obtain ⟨h', hr, h1, h2, h3⟩ := Read_cons_fields (toByte h.Pstr.length)
      (h.Pstr ++ make 8 ++ h.InfoHash.val ++ h.PeerID.val) (by omega) (by omega)
    rw [hv] at h1 h2 h3
    have p1 : h'.Pstr = h.Pstr.take (h.Pstr.length % 256) := by
      rw [h1]
      simp only [List.append_assoc]
      exact List.take_append_of_le_length hle
    refine ⟨h', by rw [hr], p1, ?_, ?_, ?_, ?_, ?_⟩
    · rw [p1, List.length_take]; omega
    · rw [h2]
      have e : 1 + h.Pstr.length % 256 + 8 = (h.Pstr.length % 256 + 8) + 1 := by omega
      rw [e, List.drop_succ_cons]
    · rw [h3, List.drop_drop]
      have e : 1 + h.Pstr.length % 256 + 28 = (h.Pstr.length % 256 + 8 + 20) + 1 := by omega
      rw [e, List.drop_succ_cons]
    · have e : 1 + h.Pstr.length + 8 = (h.Pstr.length + 8) + 1 := by omega
      rw [e, List.drop_succ_cons]
      have e2 : h.Pstr ++ make 8 ++ h.InfoHash.val ++ h.PeerID.val
          = (h.Pstr ++ make 8) ++ (h.InfoHash.val ++ h.PeerID.val) := by
        simp only [List.append_assoc]
      rw [e2, List.drop_left' (by simp [make_length])]
      exact (List.take_left' hi).symm
    · have e : 1 + h.Pstr.length + 28 = (h.Pstr.length + 28) + 1 := by omega
      rw [e, List.drop_succ_cons, List.drop_left' (by simp [make_length, hi])]
      exact (List.take_of_length_le (by omega)).symm

/-- Witness for C18: a handshake whose pstr has 257 bytes; the length byte is 1. -/
theorem C18_handshake_roundtrip_fails_witness :
    longerPstrHandshake.Pstr.length = 257 ∧
    ∃ bs b rest, longerPstrHandshake.Serialize = .ok bs ∧ bs = b :: rest
      ∧ b.val = longerPstrHandshake.Pstr.length % 256
      ∧ (Read bs).1 ≠ .ok longerPstrHandshake
      ∧ (longerPstrHandshake.Pstr.length % 256 = 0
          → (Read bs).1 = .err (.Errorf "pstrlen cannot be 0"))
      ∧ (longerPstrHandshake.Pstr.length % 256 ≠ 0 → ∃ h', (Read bs).1 = .ok h'
          ∧ h'.Pstr = longerPstrHandshake.Pstr.take (longerPstrHandshake.Pstr.length % 256)
          ∧ h'.Pstr.length = longerPstrHandshake.Pstr.length % 256
          ∧ h'.InfoHash.val
              = (bs.drop (1 + longerPstrHandshake.Pstr.length % 256 + 8)).take 20
          ∧ h'.PeerID.val
              = (bs.drop (1 + longerPstrHandshake.Pstr.length % 256 + 28)).take 20
          ∧ longerPstrHandshake.InfoHash.val
              = (bs.drop (1 + longerPstrHandshake.Pstr.length + 8)).take 20
          ∧ longerPstrHandshake.PeerID.val
              = (bs.drop (1 + longerPstrHandshake.Pstr.length + 28)).take 20) :=
  ⟨List.length_replicate _ _,
    C18_handshake_roundtrip_fails longerPstrHandshake
      (Or.inr (by
        have hl : longerPstrHandshake.Pstr.length = 257 := List.length_replicate _ _
        rw [hl]
        decide))⟩

/-! ## Message codec: claims -/

/-- C2, as the code has it: for every message that is keep-alive or typed with a
payload of at most `2^32 - 6` bytes (any kind byte, any payload content),
`Serialize` passes all bounds checks, and `read` on a stream holding exactly the
serialized bytes succeeds, consumes the whole stream, and returns keep-alive for
keep-alive and otherwise a typed message with the same kind byte and payload. -/
theorem C2_message_roundtrip (m : Option Message)
    (hfit : ∀ x, m = some x → x.Payload.length ≤ 2 ^ 32 - 6) :
    ∃ bs, Message.Serialize m = .ok bs ∧ read bs = (.ok m, []) := by
  cases m with
  | none =>
    refine ⟨[0, 0, 0, 0], rfl, ?_⟩
    exact read_zero 0 0 0 0 [] rfl
  | some x =>
    have hx := hfit x rfl
    have hlen : x.Payload.length + 5 < 2 ^ 32 := by omega
    refine ⟨_, Message.Serialize_fits x hlen, ?_⟩
    have hv := bigEndianValue_put (x.Payload.length + 1) (by omega)
    have hf := read_frame (toByte ((x.Payload.length + 1) >>> 24))
      (toByte ((x.Payload.length + 1) >>> 16)) (toByte ((x.Payload.length + 1) >>> 8))
      (toByte (x.Payload.length + 1)) x.ID x.Payload (by omega) (by omega)
    rw [hv] at hf
    simpa using hf

/-- Witness for C2: a typed message of an unlisted kind with three payload bytes. -/
theorem C2_message_roundtrip_witness :
    ∃ bs, Message.Serialize (some ⟨9, [1, 2, 3]⟩) = .ok bs
      ∧ read bs = (.ok (some ⟨9, [1, 2, 3]⟩), []) :=
  C2_message_roundtrip (some ⟨9, [1, 2, 3]⟩) (by
    intro x hx
    cases hx
    decide)

/-- C2 fails as stated: a typed message with a payload of `2^32` bytes serializes
to the five bytes `00 00 00 01 00`, which `read` parses as a typed message with an
empty payload, not the message that was serialized. -/
theorem C2_message_roundtrip_counterexample :
    Message.Serialize (some wrapMessage) = .ok [0, 0, 0, 1, 0]
      ∧ read [0, 0, 0, 1, 0] = (.ok (some ⟨0, []⟩), [])
      ∧ ¬ ∃ bs, Message.Serialize (some wrapMessage) = .ok bs
          ∧ (read bs).1 = .ok (some wrapMessage) := by
  have hl : wrapMessage.Payload.length = 2 ^ 32 := List.length_replicate _ _
  have hs : Message.Serialize (some wrapMessage) = .ok [0, 0, 0, 1, 0] :=
    Message.Serialize_wrap wrapMessage hl
  have hr : read [0, 0, 0, 1, 0] = (.ok (some ⟨0, []⟩), []) := by decide
  refine ⟨hs, hr, ?_⟩
  rintro ⟨bs, h1, h2⟩
  rw [hs] at h1
  cases h1
  rw [hr] at h2
  have h3 : (⟨0, []⟩ : Message) = wrapMessage := Option.some.inj (Outcome.ok.inj h2)
  have h4 := congrArg (fun x => x.Payload.length) h3
  simp only [hl, List.length_nil] at h4
  exact absurd h4 (by decide)

/-- C4, as the code has it: for every typed message with a payload of at most
`2^32 - 6` bytes, `Serialize` passes all bounds checks and returns
`5 + len(Payload)` bytes: four bytes that denote `1 + len(Payload)` in big-endian
order, then the kind byte, then the payload bytes. -/
theorem C4_message_layout (m : Message) (hfit : m.Payload.length ≤ 2 ^ 32 - 6) :
    ∃ bs lenWord, Message.Serialize (some m) = .ok bs
      ∧ bs = lenWord ++ [m.ID] ++ m.Payload
      ∧ lenWord.length = 4 ∧ bigEndianValue lenWord = 1 + m.Payload.length
      ∧ bs.length = 5 + m.Payload.length := by
  have hlen : m.Payload.length + 5 < 2 ^ 32 := by omega
  refine ⟨_, [toByte ((m.Payload.length + 1) >>> 24), toByte ((m.Payload.length + 1) >>> 16),
    toByte ((m.Payload.length + 1) >>> 8), toByte (m.Payload.length + 1)],
    Message.Serialize_fits m hlen, ?_, rfl, ?_, ?_⟩
  · simp
  · rw [bigEndianValue_put _ (by omega)]; omega
  · simp only [List.length_append, List.length_cons, List.length_nil]; omega

/-- Witness for C4: a request-kind message with three payload bytes. -/
theorem C4_message_layout_witness :
    ∃ bs lenWord, Message.Serialize (some ⟨6, [1, 2, 3]⟩) = .ok bs
      ∧ bs = lenWord ++ [6] ++ [1, 2, 3]
      ∧ lenWord.length = 4 ∧ bigEndianValue lenWord = 1 + 3
      ∧ bs.length = 5 + 3 :=
  C4_message_layout ⟨6, [1, 2, 3]⟩ (by decide)

/-- C4 fails as stated: for a typed message with a payload of `2^32 - 1` bytes the
length word wraps to 0, the buffer has four bytes, and the store of the kind byte
is out of range, so no byte string is returned. -/
theorem C4_message_layout_counterexample :
    wrapPanicMessage.Payload.length = 2 ^ 32 - 1
      ∧ Message.Serialize (some wrapPanicMessage) = .error .indexOutOfRange :=
  ⟨List.length_replicate _ _, Message.Serialize_wrap_panic wrapPanicMessage
    (List.length_replicate _ _)⟩

/-- C5: Keep-alive framing. `Serialize` of the nil message is exactly the four
bytes `00 00 00 00`, and on every stream that starts with four zero bytes `read`
returns the nil message with a nil error, whatever bytes follow; those are left
unread. -/
theorem C5_keepalive_framing :
    Message.Serialize none = .ok [0, 0, 0, 0]
      ∧ ∀ rest : List Byte, read (0 :: 0 :: 0 :: 0 :: rest) = (.ok none, rest) :=
  ⟨rfl, fun rest => read_zero 0 0 0 0 rest rfl⟩

/-- C8: Message short read. On every stream that holds fewer than 4 bytes, and on
every stream whose first 4 bytes denote a length `L > 0` in big-endian order and
that holds fewer than `L` bytes after them, `read` returns no message and an error
that is `io.EOF` or `io.ErrUnexpectedEOF`; in particular it does not return the
keep-alive value. -/
theorem C8_message_short_read (r : List Byte)
    (hshort : r.length < 4 ∨ ∃ b0 b1 b2 b3 t, r = b0 :: b1 :: b2 :: b3 :: t
      ∧ 0 < bigEndianValue [b0, b1, b2, b3] ∧ t.length < bigEndianValue [b0, b1, b2, b3]) :
    (∃ e, (read r).1 = .err e ∧ (e = .EOF ∨ e = .ErrUnexpectedEOF) ∧ e.isStreamError = true)
      ∧ (read r).1 ≠ .ok none := by
  have key : ∃ e, (read r).1 = .err e ∧ (e = .EOF ∨ e = .ErrUnexpectedEOF)
      ∧ e.isStreamError = true := by
    rcases hshort with h | ⟨b0, b1, b2, b3, t, h, _, ht⟩
    · refine ⟨if r.length = 0 then .EOF else .ErrUnexpectedEOF, ?_, ?_, ?_⟩
      · rw [read_short_header r h]
      · split
        · exact Or.inl rfl
        · exact Or.inr rfl
      · split <;> rfl
    · subst h
      refine ⟨if t.length = 0 then .EOF else .ErrUnexpectedEOF, ?_, ?_, ?_⟩
      · rw [read_short_body b0 b1 b2 b3 t ht]
      · split
        · exact Or.inl rfl
        · exact Or.inr rfl
      · split <;> rfl
  refine ⟨key, ?_⟩
  obtain ⟨e, he, _⟩ := key
  rw [he]
  intro hc
  cases hc

/-- Witness for C8: a frame that declares four bytes and holds three. -/
theorem C8_message_short_read_witness :
    bigEndianValue [0, 0, 0, 4] = 4 ∧
    (∃ e, (read [0, 0, 0, 4, 9, 1, 2]).1 = .err e ∧ (e = .EOF ∨ e = .ErrUnexpectedEOF)
      ∧ e.isStreamError = true)
      ∧ (read [0, 0, 0, 4, 9, 1, 2]).1 ≠ .ok none :=
  ⟨by decide, C8_message_short_read [0, 0, 0, 4, 9, 1, 2]
    (Or.inr ⟨0, 0, 0, 4, [9, 1, 2], rfl, by decide, by decide⟩)⟩

/-- C9: FormatRequest encoding. For all `index`, `begin` and `length` in
`0 .. 2^32 - 1`, `FormatRequest` passes all bounds checks and returns a message of
kind Request (6) whose payload has exactly 12 bytes: four bytes denoting `index` in
big-endian order, then four denoting `begin`, then four denoting `length`. -/
theorem C9_format_request (index begin_ length : Int)
    (hi : 0 ≤ index ∧ index < 2 ^ 32) (hb : 0 ≤ begin_ ∧ begin_ < 2 ^ 32)
    (hl : 0 ≤ length ∧ length < 2 ^ 32) :
    ∃ m, FormatRequest index begin_ length = .ok m ∧ m.ID = 6 ∧ m.Payload.length = 12
      ∧ ∃ w1 w2 w3 : List Byte, m.Payload = w1 ++ w2 ++ w3
        ∧ w1.length = 4 ∧ w2.length = 4 ∧ w3.length = 4
        ∧ (bigEndianValue w1 : Int) = index ∧ (bigEndianValue w2 : Int) = begin_
        ∧ (bigEndianValue w3 : Int) = length := by
  refine ⟨_, FormatRequest_eq index begin_ length, rfl, rfl, _, _, _, rfl, rfl, rfl, rfl,
    ?_, ?_, ?_⟩
  · rw [bigEndianValue_put _ (intToUint32_lt _)]
    exact intToUint32_of_range _ hi.1 hi.2
  · rw [bigEndianValue_put _ (intToUint32_lt _)]
    exact intToUint32_of_range _ hb.1 hb.2
  · rw [bigEndianValue_put _ (intToUint32_lt _)]
    exact intToUint32_of_range _ hl.1 hl.2

/-- Witness for C9: `FormatRequest(7, 0, 16384)` has the payload
`00 00 00 07 00 00 00 00 00 00 40 00`. -/
theorem C9_format_request_witness :
    FormatRequest 7 0 16384 = .ok ⟨6, [0, 0, 0, 7, 0, 0, 0, 0, 0, 0, 0x40, 0]⟩
      ∧ ∃ m, FormatRequest 7 0 16384 = .ok m ∧ m.ID = 6 ∧ m.Payload.length = 12
        ∧ ∃ w1 w2 w3 : List Byte, m.Payload = w1 ++ w2 ++ w3
          ∧ w1.length = 4 ∧ w2.length = 4 ∧ w3.length = 4
          ∧ (bigEndianValue w1 : Int) = 7 ∧ (bigEndianValue w2 : Int) = 0
          ∧ (bigEndianValue w3 : Int) = 16384 :=
  ⟨by decide, C9_format_request 7 0 16384 (by decide) (by decide) (by decide)⟩

/-- C11: Message field extraction without validation. On every stream whose first
4 bytes denote a length `L > 0` in big-endian order and that holds at least `L`
further bytes, with `b` the first `L` of them, `read` succeeds (no error, no failed
bounds check), leaves the bytes after `b` unread and returns a typed message with
`ID = b[0]` and `Payload = b[1..L)`, which has `L - 1` bytes, whatever the kind
byte and the payload are. -/
theorem C11_message_extraction (b0 b1 b2 b3 : Byte) (t : List Byte)
    (hpos : 0 < bigEndianValue [b0, b1, b2, b3])
    (hl : bigEndianValue [b0, b1, b2, b3] ≤ t.length) :
    ∃ id, (t.take (bigEndianValue [b0, b1, b2, b3])).head? = some id
      ∧ read (b0 :: b1 :: b2 :: b3 :: t)
          = (.ok (some ⟨id, (t.take (bigEndianValue [b0, b1, b2, b3])).drop 1⟩),
              t.drop (bigEndianValue [b0, b1, b2, b3]))
      ∧ ((t.take (bigEndianValue [b0, b1, b2, b3])).drop 1).length
          = bigEndianValue [b0, b1, b2, b3] - 1 := by
  cases t with
  | nil => simp at hl; omega
  | cons id t' =>
    have hf := read_frame b0 b1 b2 b3 id t' hpos (by simpa using hl)
    obtain ⟨k, hk⟩ : ∃ k, bigEndianValue [b0, b1, b2, b3] = k + 1 := ⟨_, (Nat.succ_pred_eq_of_pos hpos).symm⟩
    rw [hk] at hf hl ⊢
    simp only [List.length_cons, Nat.add_le_add_iff_right] at hl
    refine ⟨id, by simp, ?_, ?_⟩
    · simpa using hf
    · simp [List.length_take, hl]

/-- Witness for C11: a frame of the unlisted kind 200 with three payload bytes,
followed by one more byte. -/
theorem C11_message_extraction_witness :
    ∃ id, (([200, 1, 2, 3, 77] : List Byte).take (bigEndianValue [0, 0, 0, 4])).head? = some id
      ∧ read (0 :: 0 :: 0 :: 4 :: [200, 1, 2, 3, 77])
          = (.ok (some ⟨id, (([200, 1, 2, 3, 77] : List Byte).take
                (bigEndianValue [0, 0, 0, 4])).drop 1⟩),
              ([200, 1, 2, 3, 77] : List Byte).drop (bigEndianValue [0, 0, 0, 4]))
      ∧ ((([200, 1, 2, 3, 77] : List Byte).take (bigEndianValue [0, 0, 0, 4])).drop 1).length
          = bigEndianValue [0, 0, 0, 4] - 1 :=
  C11_message_extraction 0 0 0 4 [200, 1, 2, 3, 77] (by decide) (by decide)

/-- C12, as the code has it: for every kind byte `k` in `9..255` and every payload
`p` of at most `2^32 - 6` bytes, `read` on the serialization of the message
`{k, p}` returns a message with kind byte `k` and payload `p`, and the rendering of
that message is `Unknown#`, the decimal digits of `k`, a space and an opening
bracket, the decimal digits of the payload length, and a closing bracket. -/
theorem C12_unknown_kind (k : Byte) (p : List Byte) (hk : 9 ≤ k.val)
    (hfit : p.length ≤ 2 ^ 32 - 6) :
    ∃ bs, Message.Serialize (some ⟨k, p⟩) = .ok bs ∧ read bs = (.ok (some ⟨k, p⟩), [])
      ∧ Message.String (some ⟨k, p⟩)
          = "Unknown#" ++ toString k.val ++ " [" ++ toString p.length ++ "]" := by
  obtain ⟨bs, h1, h2⟩ := read_serialized (some ⟨k, p⟩)
    (by intro x hx; cases hx; exact hfit) []
  rw [List.append_nil] at h2
  refine ⟨bs, h1, h2, ?_⟩
  simp only [Message.String, Message.name_unknown ⟨k, p⟩ hk]
  rfl

/-- Witness for C12: kind byte 9 with three payload bytes renders as
`Unknown#9 [3]`. -/
theorem C12_unknown_kind_witness :
    Message.String (some ⟨9, [1, 2, 3]⟩) = "Unknown#9 [3]" ∧
    ∃ bs, Message.Serialize (some ⟨9, [1, 2, 3]⟩) = .ok bs
      ∧ read bs = (.ok (some ⟨9, [1, 2, 3]⟩), [])
      ∧ Message.String (some ⟨9, [1, 2, 3]⟩)
          = "Unknown#" ++ toString (9 : Byte).val ++ " [" ++ toString [1, 2, 3].length ++ "]" :=
  ⟨by decide, C12_unknown_kind 9 [1, 2, 3] (by decide) (by decide)⟩

/-- C12 fails as stated: the message of kind 9 with a payload of `2^32` bytes
serializes to `00 00 00 01 09`, which `read` parses as kind 9 with an empty
payload, rendered `Unknown#9 [0]`. -/
theorem C12_unknown_kind_counterexample :
    Message.Serialize (some wrapUnknownMessage) = .ok [0, 0, 0, 1, 9]
      ∧ read [0, 0, 0, 1, 9] = (.ok (some ⟨9, []⟩), [])
      ∧ Message.String (some ⟨9, []⟩) = "Unknown#9 [0]"
      ∧ ¬ ∃ bs, Message.Serialize (some wrapUnknownMessage) = .ok bs
          ∧ (read bs).1 = .ok (some wrapUnknownMessage) := by
  have hl : wrapUnknownMessage.Payload.length = 2 ^ 32 := List.length_replicate _ _
  have hs : Message.Serialize (some wrapUnknownMessage) = .ok [0, 0, 0, 1, 9] :=
    Message.Serialize_wrap wrapUnknownMessage hl
  have hr : read [0, 0, 0, 1, 9] = (.ok (some ⟨9, []⟩), []) := by decide
  refine ⟨hs, hr, by decide, ?_⟩
  rintro ⟨bs, h1, h2⟩
  rw [hs] at h1
  cases h1
  rw [hr] at h2
  have h3 : (⟨9, []⟩ : Message) = wrapUnknownMessage := Option.some.inj (Outcome.ok.inj h2)
  have h4 := congrArg (fun x => x.Payload.length) h3
  simp only [hl, List.length_nil] at h4
  exact absurd h4 (by decide)

/-- C13: Render names. For every typed message with kind in `0..8`, `String`
returns the fixed name of that kind (the entry of `knownNames` at the kind byte)
followed by a space, an opening bracket, the decimal digits of the payload length
and a closing bracket; keep-alive renders as exactly `KeepAlive`; two typed
messages with the same name have the same kind byte, known or unknown; no typed
message has the keep-alive name; and no typed message renders the same text as
keep-alive. -/
theorem C13_render_names :
    knownNames = ["Choke", "Unchoke", "Interested", "NotInterested", "Have", "Bitfield",
      "Request", "Piece", "Cancel"]
    ∧ (∀ (k : Byte) (p : List Byte), k.val ≤ 8 → ∃ nm, knownNames[k.val]? = some nm
        ∧ Message.name (some ⟨k, p⟩) = nm
        ∧ Message.String (some ⟨k, p⟩) = nm ++ " [" ++ toString p.length ++ "]")
    ∧ Message.String none = "KeepAlive"
    ∧ (∀ a b : Message, Message.name (some a) = Message.name (some b) → a.ID = b.ID)
    ∧ (∀ a : Message, Message.name (some a) ≠ Message.name none)
    ∧ (∀ a : Message, Message.String (some a) ≠ Message.String none) := by
  refine ⟨rfl, ?_, rfl, ?_, ?_, ?_⟩
  · rintro ⟨k, hlt⟩ p hk
    simp only at hk
    interval_cases k <;> exact ⟨_, rfl, rfl, rfl⟩
  · intro a b h
    apply Fin.ext
    rw [← nameCode_name a, ← nameCode_name b, h]
  · intro a
    exact name_byte_ne_keepalive a.ID
  · intro a h
    have h1 := Message.String_last a
    rw [h] at h1
    exact absurd h1 (by decide)

/-- C14, as the code has it: for every typed message, whenever `Serialize`
returns, its result is not the keep-alive serialization, its length word is at
least 1, and `read` on it returns a typed message, never the keep-alive value;
and `Serialize` does return, and `read` gives the message back, for every typed
message whose payload has at most `2^32 - 6` bytes, the empty payload with kind 0
included. -/
theorem C14_keepalive_distinct (m : Message) :
    (∀ bs, Message.Serialize (some m) = .ok bs →
        Message.Serialize none ≠ .ok bs ∧ 1 ≤ bigEndianValue (bs.take 4)
          ∧ ∃ m', read bs = (.ok (some m'), []))
    ∧ (m.Payload.length ≤ 2 ^ 32 - 6 →
        ∃ bs, Message.Serialize (some m) = .ok bs ∧ read bs = (.ok (some m), [])) := by
  constructor
  · intro bs hbs
    rcases Message.Serialize_cases m with ⟨_, h⟩ | ⟨_, h⟩ | ⟨h1, h2, h⟩
    · rw [h] at hbs; cases hbs
    · rw [h] at hbs; cases hbs
    · rw [h] at hbs
      have hb := (Except.ok.inj hbs).symm
      have hle := toUint32_le (m.Payload.length + 1)
      have hq : (m.Payload.take (toUint32 (m.Payload.length + 1) - 1)).length
          = toUint32 (m.Payload.length + 1) - 1 := by
        rw [List.length_take]; omega
      refine ⟨?_, ?_, ⟨m.ID, m.Payload.take (toUint32 (m.Payload.length + 1) - 1)⟩, ?_⟩
      · intro hc
        have hc' : make 4 = bs := Except.ok.inj hc
        have hlen := congrArg List.length hc'
        rw [hb, make_length] at hlen
        simp at hlen
      · rw [hb]
        have ht : ([toByte (toUint32 (m.Payload.length + 1) >>> 24),
            toByte (toUint32 (m.Payload.length + 1) >>> 16),
            toByte (toUint32 (m.Payload.length + 1) >>> 8),
            toByte (toUint32 (m.Payload.length + 1))]
            ++ m.ID :: m.Payload.take (toUint32 (m.Payload.length + 1) - 1)).take 4
            = [toByte (toUint32 (m.Payload.length + 1) >>> 24),
              toByte (toUint32 (m.Payload.length + 1) >>> 16),
              toByte (toUint32 (m.Payload.length + 1) >>> 8),
              toByte (toUint32 (m.Payload.length + 1))] := List.take_left' rfl
        rw [ht, bigEndianValue_put _ (by omega)]
        exact h1
      · rw [hb]
        have hr := read_after_put (toUint32 (m.Payload.length + 1)) m.ID
          (m.Payload.take (toUint32 (m.Payload.length + 1) - 1)) [] h1 (by omega) hq
        rw [List.append_nil] at hr
        exact hr
  · intro hfit
    have h := read_serialized (some m) (by intro x hx; cases hx; exact hfit) []
    obtain ⟨bs, h1, h2⟩ := h
    rw [List.append_nil] at h2
    exact ⟨bs, h1, h2⟩

/-- Witness for C14: the typed message of kind 0 with an empty payload serializes to
`00 00 00 01 00`, which is not the keep-alive frame and is read back as a typed
message. -/
theorem C14_keepalive_distinct_witness :
    Message.Serialize (some ⟨0, []⟩) = .ok [0, 0, 0, 1, 0]
      ∧ Message.Serialize none ≠ .ok [0, 0, 0, 1, 0]
      ∧ 1 ≤ bigEndianValue (([0, 0, 0, 1, 0] : List Byte).take 4)
      ∧ ∃ m', read [0, 0, 0, 1, 0] = (.ok (some m'), []) :=
  ⟨by decide, (C14_keepalive_distinct ⟨0, []⟩).1 [0, 0, 0, 1, 0] (by decide)⟩

/-- C14 fails as stated: for the typed message of kind 5 with a payload of
`2^32 - 1` bytes `Serialize` returns no bytes at all (the store at `buf[4]` is out
of range), so there is no serialization for `read` to parse. -/
theorem C14_keepalive_distinct_counterexample :
    wrapBitfieldMessage.Payload.length = 2 ^ 32 - 1
      ∧ Message.Serialize (some wrapBitfieldMessage) = .error .indexOutOfRange
      ∧ ¬ ∃ bs, Message.Serialize (some wrapBitfieldMessage) = .ok bs := by
  have hl : wrapBitfieldMessage.Payload.length = 2 ^ 32 - 1 := List.length_replicate _ _
  have hs := Message.Serialize_wrap_panic wrapBitfieldMessage hl
  refine ⟨hl, hs, ?_⟩
  rintro ⟨bs, h⟩
  rw [hs] at h
  cases h

/-- C16, as the code has it: for a message `m` that is keep-alive or typed with a
payload of at most `2^32 - 6` bytes and arbitrary bytes `rest`, `read` on
`m.Serialize() ++ rest` returns `m` and consumes exactly the serialized bytes,
leaving `rest`; and for messages `m1 .. mn` of that kind, `n + 1` successive reads
of `Serialize(m1) ++ ... ++ Serialize(mn)` return `m1, .., mn` in order and then
fail with `io.EOF`. -/
theorem C16_frame_exact (m : Option Message) (rest : List Byte) (ms : List (Option Message))
    (hm : ∀ x, m = some x → x.Payload.length ≤ 2 ^ 32 - 6)
    (hms : ∀ x, some x ∈ ms → x.Payload.length ≤ 2 ^ 32 - 6) :
    (∃ bs, Message.Serialize m = .ok bs ∧ read (bs ++ rest) = (.ok m, rest)
        ∧ (bs ++ rest).drop bs.length = rest)
    ∧ ∃ s, serializeAll ms = .ok s
        ∧ readTimes (ms.length + 1) s = (ms.map Outcome.ok ++ [.err .EOF], []) := by
  constructor
  · obtain ⟨bs, h1, h2⟩ := read_serialized m hm rest
    exact ⟨bs, h1, h2, List.drop_left _ _⟩
  · obtain ⟨s, hs, hrec⟩ := readTimes_serializeAll ms hms
    refine ⟨s, hs, ?_⟩
    have h := hrec 1 []
    rw [List.append_nil] at h
    rw [h]
    rfl

/-- Witness for C16: a request frame followed by two bytes, and the concatenation
of a have message, a keep-alive and an unlisted kind. -/
theorem C16_frame_exact_witness :
    (∃ bs, Message.Serialize (some ⟨6, [1, 2, 3]⟩) = .ok bs
        ∧ read (bs ++ [9, 9]) = (.ok (some ⟨6, [1, 2, 3]⟩), [9, 9])
        ∧ (bs ++ [9, 9]).drop bs.length = [9, 9])
    ∧ ∃ s, serializeAll sampleMessages = .ok s
        ∧ readTimes (sampleMessages.length + 1) s
          = (sampleMessages.map Outcome.ok ++ [.err .EOF], []) :=
  C16_frame_exact (some ⟨6, [1, 2, 3]⟩) [9, 9] sampleMessages
    (by intro x hx; cases hx; decide)
    (by
      intro x hx
      simp only [sampleMessages, List.mem_cons, Option.some.injEq, List.mem_singleton,
        reduceCtorEq, false_or, List.mem_nil_iff, or_false] at hx
      rcases hx with rfl | rfl <;> decide)

/-- C16 fails as stated: the Piece message with a payload of `2^32` bytes
serializes to `00 00 00 01 07`; on those bytes followed by `01 02`, `read` consumes
the five bytes and returns a Piece message with an empty payload, not the message
that was serialized. -/
theorem C16_frame_exact_counterexample :
    Message.Serialize (some wrapPieceMessage) = .ok [0, 0, 0, 1, 7]
      ∧ read ([0, 0, 0, 1, 7] ++ [1, 2]) = (.ok (some ⟨7, []⟩), [1, 2])
      ∧ ¬ ∃ bs, Message.Serialize (some wrapPieceMessage) = .ok bs
          ∧ (read (bs ++ [1, 2])).1 = .ok (some wrapPieceMessage) := by
  have hl : wrapPieceMessage.Payload.length = 2 ^ 32 := List.length_replicate _ _
  have hs : Message.Serialize (some wrapPieceMessage) = .ok [0, 0, 0, 1, 7] :=
    Message.Serialize_wrap wrapPieceMessage hl
  have hr : read ([0, 0, 0, 1, 7] ++ [1, 2]) = (.ok (some ⟨7, []⟩), [1, 2]) := by decide
  refine ⟨hs, hr, ?_⟩
  rintro ⟨bs, h1, h2⟩
  rw [hs] at h1
  cases h1
  rw [hr] at h2
  have h3 : (⟨7, []⟩ : Message) = wrapPieceMessage := Option.some.inj (Outcome.ok.inj h2)
  have h4 := congrArg (fun x => x.Payload.length) h3
  simp only [hl, List.length_nil] at h4
  exact absurd h4 (by decide)

/-- C17 at its failing input: on the frame that declares `2^32 - 1` bytes and holds
them, `read` succeeds and consumes the whole stream, returning a message with
`2^32 - 2` payload bytes; `Serialize` of that message does not return the consumed
bytes but fails the bounds check of `buf[0:4]`, because the buffer size
`4 + length` wraps to 3. -/
theorem C17_reserialize_max_frame :
    ∃ m, read maxFrameStream = (.ok (some m), [])
      ∧ m.ID = 0 ∧ m.Payload.length = 2 ^ 32 - 2
      ∧ Message.Serialize (some m) = .error .sliceBoundsOutOfRange :=
  read_max_frame (List.replicate (2 ^ 32 - 2) 0) (List.length_replicate _ _)

/-- C19: `Serialize` is safe only below the 32-bit size wrap. For every typed
message whose payload has at most `2^32 - 6` bytes, `Serialize` fails no bounds
check and returns `5 + len(Payload)` bytes whose length word denotes
`1 + len(Payload)`. For every typed message whose payload has `2^32 - 5` bytes or
more, the buffer size computed in `uint32` is not `5 + len(Payload)`, and
`Serialize` either fails the bounds check of `buf[0:4]`, or fails the bounds check
of `buf[4]`, or returns bytes whose length word does not denote
`1 + len(Payload)`. -/
theorem C19_serialize_wrap (m : Message) :
    (m.Payload.length ≤ 2 ^ 32 - 6 →
      ∃ bs, Message.Serialize (some m) = .ok bs ∧ bs.length = 5 + m.Payload.length
        ∧ bigEndianValue (bs.take 4) = 1 + m.Payload.length)
    ∧ (2 ^ 32 - 5 ≤ m.Payload.length →
      toUint32 (4 + toUint32 (m.Payload.length + 1)) ≠ 5 + m.Payload.length
        ∧ (Message.Serialize (some m) = .error .sliceBoundsOutOfRange
          ∨ Message.Serialize (some m) = .error .indexOutOfRange
          ∨ ∃ bs, Message.Serialize (some m) = .ok bs
              ∧ bigEndianValue (bs.take 4) ≠ 1 + m.Payload.length)) := by
  constructor
  · intro hfit
    refine ⟨_, Message.Serialize_fits m (by omega), ?_, ?_⟩
    · simp only [List.length_append, List.length_cons, List.length_nil]; omega
    · have ht : ([toByte ((m.Payload.length + 1) >>> 24),
          toByte ((m.Payload.length + 1) >>> 16), toByte ((m.Payload.length + 1) >>> 8),
          toByte (m.Payload.length + 1)] ++ m.ID :: m.Payload).take 4
          = [toByte ((m.Payload.length + 1) >>> 24), toByte ((m.Payload.length + 1) >>> 16),
            toByte ((m.Payload.length + 1) >>> 8), toByte (m.Payload.length + 1)] :=
        List.take_left' rfl
      rw [ht, bigEndianValue_put _ (by omega)]
      omega
  · intro hbig
    constructor
    · have := toUint32_lt (4 + toUint32 (m.Payload.length + 1))
      omega
    · rcases Message.Serialize_cases m with ⟨_, h⟩ | ⟨_, h⟩ | ⟨h1, h2, h⟩
      · exact Or.inr (Or.inl h)
      · exact Or.inl h
      · refine Or.inr (Or.inr ⟨_, h, ?_⟩)
        have ht : ([toByte (toUint32 (m.Payload.length + 1) >>> 24),
            toByte (toUint32 (m.Payload.length + 1) >>> 16),
            toByte (toUint32 (m.Payload.length + 1) >>> 8),
            toByte (toUint32 (m.Payload.length + 1))]
            ++ m.ID :: m.Payload.take (toUint32 (m.Payload.length + 1) - 1)).take 4
            = [toByte (toUint32 (m.Payload.length + 1) >>> 24),
              toByte (toUint32 (m.Payload.length + 1) >>> 16),
              toByte (toUint32 (m.Payload.length + 1) >>> 8),
              toByte (toUint32 (m.Payload.length + 1))] := List.take_left' rfl
        rw [ht, bigEndianValue_put _ (by omega)]
        omega

/-- C20: `FormatRequest` truncates to 32 bits. For all integers `index`, `begin`
and `length`, negative values and values from `2^32` on included, `FormatRequest`
reports no error and returns a Request message whose 12-byte payload is three
4-byte words that denote `index mod 2^32`, `begin mod 2^32` and `length mod 2^32`
in big-endian order; and argument triples that are congruent modulo `2^32` give
identical messages. -/
theorem C20_format_request_truncates (index begin_ length index' begin' length' : Int)
    (hi : index' % 2 ^ 32 = index % 2 ^ 32) (hb : begin' % 2 ^ 32 = begin_ % 2 ^ 32)
    (hl : length' % 2 ^ 32 = length % 2 ^ 32) :
    (∃ m, FormatRequest index begin_ length = .ok m ∧ m.ID = 6 ∧ m.Payload.length = 12
      ∧ ∃ w1 w2 w3 : List Byte, m.Payload = w1 ++ w2 ++ w3
        ∧ w1.length = 4 ∧ w2.length = 4 ∧ w3.length = 4
        ∧ (bigEndianValue w1 : Int) = index % 2 ^ 32
        ∧ (bigEndianValue w2 : Int) = begin_ % 2 ^ 32
        ∧ (bigEndianValue w3 : Int) = length % 2 ^ 32)
    ∧ FormatRequest index' begin' length' = FormatRequest index begin_ length := by
  constructor
  · refine ⟨_, FormatRequest_eq index begin_ length, rfl, rfl, _, _, _, rfl, rfl, rfl, rfl,
      ?_, ?_, ?_⟩
    · rw [bigEndianValue_put _ (intToUint32_lt _)]
      exact intToUint32_cast _
    · rw [bigEndianValue_put _ (intToUint32_lt _)]
      exact intToUint32_cast _
    · rw [bigEndianValue_put _ (intToUint32_lt _)]
      exact intToUint32_cast _
  · have e1 : intToUint32 index' = intToUint32 index := by
      simp only [intToUint32, hi]
    have e2 : intToUint32 begin' = intToUint32 begin_ := by
      simp only [intToUint32, hb]
    have e3 : intToUint32 length' = intToUint32 length := by
      simp only [intToUint32, hl]
    rw [FormatRequest_eq, FormatRequest_eq, e1, e2, e3]

/-- Witness for C20: the triples `(-1, 2^32 + 5, 16384)` and
`(2^32 - 1, 5, 16384 - 2^32)` give the same message, with payload
`FF FF FF FF 00 00 00 05 00 00 40 00`. -/
theorem C20_format_request_truncates_witness :
    FormatRequest (-1) (2 ^ 32 + 5) 16384
        = .ok ⟨6, [255, 255, 255, 255, 0, 0, 0, 5, 0, 0, 0x40, 0]⟩
    ∧ (∃ m, FormatRequest (-1) (2 ^ 32 + 5) 16384 = .ok m ∧ m.ID = 6 ∧ m.Payload.length = 12
      ∧ ∃ w1 w2 w3 : List Byte, m.Payload = w1 ++ w2 ++ w3
        ∧ w1.length = 4 ∧ w2.length = 4 ∧ w3.length = 4
        ∧ (bigEndianValue w1 : Int) = (-1) % 2 ^ 32
        ∧ (bigEndianValue w2 : Int) = (2 ^ 32 + 5) % 2 ^ 32
        ∧ (bigEndianValue w3 : Int) = 16384 % 2 ^ 32)
    ∧ FormatRequest (2 ^ 32 - 1) 5 (16384 - 2 ^ 32) = FormatRequest (-1) (2 ^ 32 + 5) 16384 :=
  ⟨by decide, C20_format_request_truncates (-1) (2 ^ 32 + 5) 16384 (2 ^ 32 - 1) 5
    (16384 - 2 ^ 32) (by decide) (by decide) (by decide)⟩

end BitTorrent
